import Mathlib

/-!
# Verification of `natcmp` (natural-order string comparison)

Shallow embedding of `src/natcmp.h`.  A C string is modelled as a
`List Nat` of byte values; a cursor into a string is the remaining
suffix, reading the current byte is `curByte` (`headD 0`, so the empty
list reads as the terminator, and an embedded `0` byte behaves exactly
like the C terminator).  All functions are translated from the C source;
the `strncmp`/`strncasecmp` models return the sign (-1/0/1) of the C
result, which is the only part of the C value the source inspects.
-/

/-- C `isdigit` on a byte value: ASCII '0'..'9'. -/
def isdigit (c : Nat) : Bool := 48 ≤ c && c ≤ 57

/-- ASCII case folding used by `strncasecmp`: map 'A'..'Z' to 'a'..'z'. -/
def tolower (c : Nat) : Nat := if 65 ≤ c && c ≤ 90 then c + 32 else c

/-- Read the byte at a cursor (`*s`); the end of the list is the terminator. -/
def curByte (s : List Nat) : Nat := s.headD 0

/-- Byte predicate for the digit-run scan `while (*s && isdigit(*s))`. -/
def pD (c : Nat) : Bool := c != 0 && isdigit c

/-- Byte predicate for the non-digit scan `while (*pa && !isdigit(*pa))`. -/
def pN (c : Nat) : Bool := c != 0 && !(isdigit c)

/-- Sign of C `strncasecmp a b n`: compare at most `n` bytes
case-insensitively, stopping at a difference or at the terminator. -/
def strncasecmp : Nat → List Nat → List Nat → Int
  | 0, _, _ => 0
  | n + 1, a, b =>
    let ca := tolower (curByte a)
    let cb := tolower (curByte b)
    if ca < cb then -1
    else if cb < ca then 1
    else if ca = 0 then 0
    else strncasecmp n a.tail b.tail

/-- Sign of C `strncmp a b n`: compare at most `n` bytes,
stopping at a difference or at the terminator. -/
def strncmp : Nat → List Nat → List Nat → Int
  | 0, _, _ => 0
  | n + 1, a, b =>
    let ca := curByte a
    let cb := curByte b
    if ca < cb then -1
    else if cb < ca then 1
    else if ca = 0 then 0
    else strncmp n a.tail b.tail

/-- The `natcmp_skip_leading_zeros` macro:
`while (*s == '0' && s[1] && isdigit(s[1])) s++`. -/
def skipLeadingZeros : List Nat → List Nat
  | c0 :: c1 :: rest =>
    if c0 = 48 ∧ c1 ≠ 0 ∧ isdigit c1 then skipLeadingZeros (c1 :: rest)
    else c0 :: c1 :: rest
  | s => s

/-- `natcmp_nondigit_cmp_ascii`: scan each string to its first digit or
terminator, compare the shorter prefix of the two runs case-insensitively,
then break ties by run length; only on full equality are the end cursors
written (`none` models the C leaving the caller's `end_a`/`end_b` as
`NULL`). -/
def natcmp_nondigit_cmp_ascii (a b : List Nat) :
    Int × Option (List Nat × List Nat) :=
  let len_a := (a.takeWhile pN).length
  let len_b := (b.takeWhile pN).length
  let cmp := strncasecmp (min len_a len_b) a b
  if cmp ≠ 0 then ((if cmp < 0 then -1 else 1), none)
  else if len_a ≠ len_b then ((if len_a < len_b then -1 else 1), none)
  else (0, some (a.drop len_a, b.drop len_b))

/-- Type of the `natcmp_nondigit_cmp_func_t` callback: result sign plus
the written end cursors (`none` when the callback did not write them). -/
def NondigitCmp : Type := List Nat → List Nat → Int × Option (List Nat × List Nat)

/-- The digit-run section of the `natcmp` loop body (the `an`/`bn`
comparison): returns the comparison result together with the advanced
cursors (the cursors are unchanged unless the result is 0). -/
def natcmp_digits (a b : List Nat) : Int × List Nat × List Nat :=
  let ad := skipLeadingZeros a
  let bd := skipLeadingZeros b
  let alen := (ad.takeWhile pD).length
  let blen := (bd.takeWhile pD).length
  if alen ≠ blen then ((if alen < blen then -1 else 1), a, b)
  else
    let cmp := strncmp alen ad bd
    if cmp ≠ 0 then ((if cmp < 0 then -1 else 1), a, b)
    else
      let atail := ad.drop alen
      let btail := bd.drop blen
      let alen2 := a.length - atail.length
      let blen2 := b.length - btail.length
      if alen2 ≠ blen2 then ((if alen2 < blen2 then -1 else 1), a, b)
      else (0, atail, btail)

/-- The final return of `natcmp` after the loop:
`if (*b) return -1; else if (*a) return 1; return 0;`. -/
def natcmp_final (a b : List Nat) : Int :=
  if curByte b ≠ 0 then -1 else if curByte a ≠ 0 then 1 else 0

/-- One fuel-indexed unfolding of the `natcmp` `while` loop.  The C
`break` after a zero-returning strategy call followed by the fall-through
to the classification check and digit-run section is modelled by
repeating those sections on the advanced cursors.  `none` is returned
when fuel runs out (a strategy violating its contract can make the C
loop diverge) or when a strategy reports 0 without writing the end
cursors (the C would dereference `NULL`). -/
def natcmpLoop (f : NondigitCmp) : Nat → List Nat → List Nat → Option Int
  | 0, _, _ => none
  | fuel + 1, a, b =>
    if curByte a ≠ 0 ∧ curByte b ≠ 0 then
      if ¬ isdigit (curByte a) ∧ ¬ isdigit (curByte b) then
        let r := f a b
        if r.1 ≠ 0 then some (if r.1 < 0 then -1 else 1)
        else
          match r.2 with
          | none => none
          | some (ea, eb) =>
            if curByte ea = 0 ∨ curByte eb = 0 then some (natcmp_final ea eb)
            else if isdigit (curByte ea) ≠ isdigit (curByte eb) then
              some (if isdigit (curByte ea) then -1 else 1)
            else
              let d := natcmp_digits ea eb
              if d.1 ≠ 0 then some d.1 else natcmpLoop f fuel d.2.1 d.2.2
      else if isdigit (curByte a) ≠ isdigit (curByte b) then
        some (if isdigit (curByte a) then -1 else 1)
      else
        let d := natcmp_digits a b
        if d.1 ≠ 0 then some d.1 else natcmpLoop f fuel d.2.1 d.2.2
    else some (natcmp_final a b)

/-- `natcmp(a, b, compare)`: a null strategy selects
`natcmp_nondigit_cmp_ascii`; the fuel `a.length + b.length + 1` covers
every terminating execution of the C loop (each iteration advances the
`a` cursor by at least one byte for a contract-abiding strategy). -/
def natcmp (a b : List Nat) (compare : Option NondigitCmp) : Option Int :=
  natcmpLoop (compare.getD natcmp_nondigit_cmp_ascii) (a.length + b.length + 1) a b

/-- `natcmp` with the default ASCII strategy, as a total function
(justified below: with the default strategy the fuel never runs out). -/
def natcmpA (a b : List Nat) : Int := (natcmp a b none).getD 0

/-- Byte list of an ASCII string literal. -/
def bytes (s : String) : List Nat := s.data.map Char.toNat

/-!
## Specification side: tokenized comparison

A string decomposes into maximal digit runs and non-digit runs; `natcmp`
with the default strategy is proved below to coincide with the
lexicographic comparison of the two token sequences, where a digit run
compares by (significant length, significant digits, total length) and a
non-digit run by its case-folded bytes, and a digit run always orders
before a non-digit run.
-/

/-- Three-way comparison of naturals. -/
def cmpInt (x y : Nat) : Int := if x < y then -1 else if y < x then 1 else 0

/-- Lexicographic three-way comparison of lists from an element comparison. -/
def listCmp {α : Type} (c : α → α → Int) : List α → List α → Int
  | [], [] => 0
  | [], _ :: _ => -1
  | _ :: _, [] => 1
  | x :: xs, y :: ys => if c x y ≠ 0 then c x y else listCmp c xs ys

/-- Lexicographic three-way comparison on pairs. -/
def prodCmp {α β : Type} (c₁ : α → α → Int) (c₂ : β → β → Int) (x y : α × β) : Int :=
  if c₁ x.1 y.1 ≠ 0 then c₁ x.1 y.1 else c₂ x.2 y.2

/-- Three-way comparison on a sum: every left value is below every right value. -/
def sumCmp {α β : Type} (c₁ : α → α → Int) (c₂ : β → β → Int) :
    α ⊕ β → α ⊕ β → Int
  | Sum.inl x, Sum.inl y => c₁ x y
  | Sum.inl _, Sum.inr _ => -1
  | Sum.inr _, Sum.inl _ => 1
  | Sum.inr x, Sum.inr y => c₂ x y

/-- A token of a string: a maximal digit run or a maximal non-digit run. -/
inductive Token : Type where
  | num : List Nat → Token
  | text : List Nat → Token

/-- The comparison key of a token: a digit run is keyed by (significant
length, significant digits, total length); a non-digit run by its
case-folded bytes; digit runs order below non-digit runs. -/
def tokenKey : Token → (Nat × List Nat × Nat) ⊕ List Nat
  | Token.num r => Sum.inl ((skipLeadingZeros r).length, skipLeadingZeros r, r.length)
  | Token.text s => Sum.inr (s.map tolower)

/-- Comparison of token keys. -/
def keyCmp : (Nat × List Nat × Nat) ⊕ List Nat → (Nat × List Nat × Nat) ⊕ List Nat → Int :=
  sumCmp (prodCmp cmpInt (prodCmp (listCmp cmpInt) cmpInt)) (listCmp cmpInt)

/-- Three-way comparison of tokens. -/
def tokenCmp (t u : Token) : Int := keyCmp (tokenKey t) (tokenKey u)

/-- `dropWhile` shortens a list whose first byte satisfies the predicate. -/
theorem length_dropWhile_lt_of_head {p : Nat → Bool} {s : List Nat}
    (h0 : curByte s ≠ 0) (hp : p (curByte s) = true) :
    (s.dropWhile p).length < s.length := by
  match s with
  | [] => exact absurd rfl h0
  | c :: t =>
    have hc : p c = true := hp
    rw [List.dropWhile_cons_of_pos hc]
    exact Nat.lt_succ_of_le (List.Sublist.length_le (List.dropWhile_sublist p))

/-- Token decomposition of a string (stopping at the terminator). -/
def tokens (s : List Nat) : List Token :=
  if h0 : curByte s = 0 then []
  else if hd : isdigit (curByte s) then
    Token.num (s.takeWhile pD) :: tokens (s.dropWhile pD)
  else
    Token.text (s.takeWhile pN) :: tokens (s.dropWhile pN)
termination_by s.length
decreasing_by
  · exact length_dropWhile_lt_of_head h0
      (by simp only [pD, Bool.and_eq_true, bne_iff_ne]; exact ⟨h0, hd⟩)
  · exact length_dropWhile_lt_of_head h0
      (by simp only [pN, Bool.and_eq_true, bne_iff_ne, Bool.not_eq_true]
          exact ⟨h0, by simp [hd]⟩)

/-- The tokenized comparison that `natcmp` with the default strategy is
proved to implement. -/
def specCmp (a b : List Nat) : Int := listCmp tokenCmp (tokens a) (tokens b)

/-!
## A framework for lawful three-way comparisons
-/

/-- `LawfulCmp c` packages the properties making `c` a three-way
comparison for a total preorder: values in {-1,0,1}, antisymmetry,
congruence of ties, and transitivity of strict comparison. -/
structure LawfulCmp {α : Type} (c : α → α → Int) : Prop where
  range : ∀ x y, c x y = -1 ∨ c x y = 0 ∨ c x y = 1
  flip : ∀ x y, c y x = - c x y
  eq_congr : ∀ x y z, c x y = 0 → c x z = c y z
  lt_trans : ∀ x y z, c x y = -1 → c y z = -1 → c x z = -1

theorem LawfulCmp.eq_symm {α : Type} {c : α → α → Int} (h : LawfulCmp c)
    {x y : α} (hxy : c x y = 0) : c y x = 0 := by
  rw [h.flip, hxy]; rfl

theorem LawfulCmp.eq_congr_right {α : Type} {c : α → α → Int} (h : LawfulCmp c)
    {x y z : α} (hyz : c y z = 0) : c x y = c x z := by
  rw [h.flip y x, h.flip z x, h.eq_congr y z x hyz]

theorem LawfulCmp.le_trans {α : Type} {c : α → α → Int} (h : LawfulCmp c)
    {x y z : α} (h1 : c x y ≤ 0) (h2 : c y z ≤ 0) : c x z ≤ 0 := by
  rcases h.range x y with hxy | hxy | hxy
  · rcases h.range y z with hyz | hyz | hyz
    · rw [h.lt_trans x y z hxy hyz]; decide
    · rw [← h.eq_congr_right hyz, hxy]; decide
    · rw [hyz] at h2; exact absurd h2 (by decide)
  · rw [h.eq_congr x y z hxy]; exact h2
  · rw [hxy] at h1; exact absurd h1 (by decide)

theorem cmpInt_eq_zero {x y : Nat} : cmpInt x y = 0 ↔ x = y := by
  unfold cmpInt; split_ifs <;> norm_num <;> omega

theorem cmpInt_eq_negone {x y : Nat} : cmpInt x y = -1 ↔ x < y := by
  unfold cmpInt; split_ifs <;> norm_num <;> omega

theorem cmpInt_eq_one {x y : Nat} : cmpInt x y = 1 ↔ y < x := by
  unfold cmpInt; split_ifs <;> norm_num <;> omega

theorem cmpInt_lawful : LawfulCmp cmpInt := by
  constructor
  · intro x y; unfold cmpInt; split_ifs <;> simp
  · intro x y; unfold cmpInt; split_ifs <;> omega
  · intro x y z hxy
    rw [cmpInt_eq_zero.mp hxy]
  · intro x y z h1 h2
    exact cmpInt_eq_negone.mpr (Nat.lt_trans (cmpInt_eq_negone.mp h1) (cmpInt_eq_negone.mp h2))

theorem listCmp_nil_nil {α : Type} {c : α → α → Int} : listCmp c [] [] = 0 := rfl

theorem listCmp_nil_cons {α : Type} {c : α → α → Int} {y : α} {ys : List α} :
    listCmp c [] (y :: ys) = -1 := rfl

theorem listCmp_cons_nil {α : Type} {c : α → α → Int} {x : α} {xs : List α} :
    listCmp c (x :: xs) [] = 1 := rfl

theorem listCmp_cons {α : Type} {c : α → α → Int} {x y : α} {xs ys : List α} :
    listCmp c (x :: xs) (y :: ys) = if c x y ≠ 0 then c x y else listCmp c xs ys := rfl

theorem listCmp_lawful {α : Type} {c : α → α → Int} (hc : LawfulCmp c) :
    LawfulCmp (listCmp c) := by
  constructor
  · intro u v
    induction u generalizing v with
    | nil => cases v <;> simp [listCmp]
    | cons x xs ih =>
      cases v with
      | nil => simp [listCmp]
      | cons y ys =>
        rw [listCmp_cons]
        split
        · exact hc.range x y
        · exact ih ys
  · intro u v
    induction u generalizing v with
    | nil => cases v <;> simp [listCmp]
    | cons x xs ih =>
      cases v with
      | nil => simp [listCmp]
      | cons y ys =>
        rw [listCmp_cons, listCmp_cons, hc.flip x y]
        rcases hc.range x y with h | h | h <;> simp [h, ih ys]
  · intro u v w h
    induction u generalizing v w with
    | nil =>
      cases v with
      | nil => rfl
      | cons y ys => simp [listCmp] at h
    | cons x xs ih =>
      cases v with
      | nil => simp [listCmp] at h
      | cons y ys =>
        rw [listCmp_cons] at h
        by_cases hxy : c x y = 0
        · rw [if_neg (by simp [hxy])] at h
          cases w with
          | nil => simp [listCmp]
          | cons z zs =>
            rw [listCmp_cons, listCmp_cons, hc.eq_congr x y z hxy]
            by_cases hyz : c y z = 0 <;> simp [hyz, ih _ _ h]
        · rw [if_pos hxy] at h; exact absurd h hxy
  · intro u v w h1 h2
    induction u generalizing v w with
    | nil =>
      cases v with
      | nil => simp [listCmp] at h1
      | cons y ys =>
        cases w with
        | nil => simp [listCmp] at h2
        | cons z zs => simp [listCmp]
    | cons x xs ih =>
      cases v with
      | nil => simp [listCmp] at h1
      | cons y ys =>
        cases w with
        | nil => simp [listCmp] at h2
        | cons z zs =>
          rw [listCmp_cons] at h1 h2 ⊢
          by_cases hxy : c x y = 0
          · rw [if_neg (by simp [hxy])] at h1
            by_cases hyz : c y z = 0
            · rw [if_neg (by simp [hyz])] at h2
              have hxz : c x z = 0 := by rw [hc.eq_congr x y z hxy]; exact hyz
              rw [if_neg (by simp [hxz])]
              exact ih _ _ h1 h2
            · rw [if_pos hyz] at h2
              have hxz : c x z = -1 := by rw [hc.eq_congr x y z hxy]; exact h2
              rw [if_pos (by rw [hxz]; decide), hxz]
          · rw [if_pos hxy] at h1
            by_cases hyz : c y z = 0
            · have hxz : c x z = -1 := by rw [← hc.eq_congr_right hyz]; exact h1
              rw [if_pos (by rw [hxz]; decide), hxz]
            · rw [if_pos hyz] at h2
              have hxz := hc.lt_trans x y z h1 h2
              rw [if_pos (by rw [hxz]; decide), hxz]

theorem prodCmp_lawful {α β : Type} {c₁ : α → α → Int} {c₂ : β → β → Int}
    (h₁ : LawfulCmp c₁) (h₂ : LawfulCmp c₂) : LawfulCmp (prodCmp c₁ c₂) := by
  constructor
  · intro x y
    unfold prodCmp
    split
    · exact h₁.range x.1 y.1
    · exact h₂.range x.2 y.2
  · intro x y
    unfold prodCmp
    rw [h₁.flip x.1 y.1]
    rcases h₁.range x.1 y.1 with h | h | h <;> simp [h, h₂.flip x.2 y.2]
  · intro x y z h
    unfold prodCmp at h ⊢
    by_cases hxy : c₁ x.1 y.1 = 0
    · rw [if_neg (by simp [hxy])] at h
      rw [h₁.eq_congr x.1 y.1 z.1 hxy]
      by_cases hyz : c₁ y.1 z.1 = 0 <;> simp [hyz, h₂.eq_congr x.2 y.2 z.2 h]
    · rw [if_pos hxy] at h; exact absurd h hxy
  · intro x y z h1 h2
    unfold prodCmp at h1 h2 ⊢
    by_cases hxy : c₁ x.1 y.1 = 0
    · rw [if_neg (by simp [hxy])] at h1
      by_cases hyz : c₁ y.1 z.1 = 0
      · rw [if_neg (by simp [hyz])] at h2
        have hxz : c₁ x.1 z.1 = 0 := by rw [h₁.eq_congr x.1 y.1 z.1 hxy]; exact hyz
        rw [if_neg (by simp [hxz])]
        exact h₂.lt_trans x.2 y.2 z.2 h1 h2
      · rw [if_pos hyz] at h2
        have hxz : c₁ x.1 z.1 = -1 := by rw [h₁.eq_congr x.1 y.1 z.1 hxy]; exact h2
        rw [if_pos (by rw [hxz]; decide), hxz]
    · rw [if_pos hxy] at h1
      by_cases hyz : c₁ y.1 z.1 = 0
      · have hxz : c₁ x.1 z.1 = -1 := by rw [← h₁.eq_congr_right hyz]; exact h1
        rw [if_pos (by rw [hxz]; decide), hxz]
      · rw [if_pos hyz] at h2
        have hxz := h₁.lt_trans x.1 y.1 z.1 h1 h2
        rw [if_pos (by rw [hxz]; decide), hxz]

theorem sumCmp_lawful {α β : Type} {c₁ : α → α → Int} {c₂ : β → β → Int}
    (h₁ : LawfulCmp c₁) (h₂ : LawfulCmp c₂) : LawfulCmp (sumCmp c₁ c₂) := by
  constructor
  · intro x y
    cases x <;> cases y <;> simp [sumCmp]
    · exact h₁.range _ _
    · exact h₂.range _ _
  · intro x y
    cases x <;> cases y <;> simp [sumCmp]
    · exact h₁.flip _ _
    · exact h₂.flip _ _
  · intro x y z h
    cases x <;> cases y <;> cases z <;> simp_all [sumCmp]
    · exact h₁.eq_congr _ _ _ h
    · exact h₂.eq_congr _ _ _ h
  · intro x y z h1 h2
    cases x <;> cases y <;> cases z <;> simp_all [sumCmp]
    · exact h₁.lt_trans _ _ _ h1 h2
    · exact h₂.lt_trans _ _ _ h1 h2

theorem compCmp_lawful {α β : Type} {c : β → β → Int} (hc : LawfulCmp c)
    (k : α → β) : LawfulCmp (fun x y => c (k x) (k y)) := by
  constructor
  · intro x y; exact hc.range (k x) (k y)
  · intro x y; exact hc.flip (k x) (k y)
  · intro x y z h; exact hc.eq_congr (k x) (k y) (k z) h
  · intro x y z h1 h2; exact hc.lt_trans (k x) (k y) (k z) h1 h2

theorem keyCmp_lawful : LawfulCmp keyCmp :=
  sumCmp_lawful
    (prodCmp_lawful cmpInt_lawful (prodCmp_lawful (listCmp_lawful cmpInt_lawful) cmpInt_lawful))
    (listCmp_lawful cmpInt_lawful)

theorem tokenCmp_lawful : LawfulCmp tokenCmp :=
  compCmp_lawful keyCmp_lawful tokenKey

theorem specCmp_lawful : LawfulCmp specCmp :=
  compCmp_lawful (listCmp_lawful tokenCmp_lawful) tokens

/-!
## Bridge lemmas between the embedded code and the tokenized comparison
-/

theorem tolower_zero : tolower 0 = 0 := by decide

theorem tolower_ne_zero {c : Nat} (h : c ≠ 0) : tolower c ≠ 0 := by
  unfold tolower; split
  · omega
  · exact h

theorem isdigit_ne_zero {c : Nat} (h : isdigit c = true) : c ≠ 0 := by
  simp only [isdigit, Bool.and_eq_true, decide_eq_true_eq] at h; omega

theorem pD_iff {c : Nat} : pD c = true ↔ c ≠ 0 ∧ isdigit c = true := by
  simp [pD, Bool.and_eq_true, bne_iff_ne]

theorem pN_iff {c : Nat} : pN c = true ↔ c ≠ 0 ∧ isdigit c = false := by
  simp [pN, Bool.and_eq_true, bne_iff_ne]

theorem pD_zero : pD 0 = false := by decide

theorem pN_zero : pN 0 = false := by decide

/-- The first byte after a `dropWhile` scan no longer satisfies the
predicate (with the terminator read as byte 0). -/
theorem curByte_dropWhile {p : Nat → Bool} (hp0 : p 0 = false) (l : List Nat) :
    p (curByte (l.dropWhile p)) = false := by
  induction l with
  | nil => exact hp0
  | cons c t ih =>
    by_cases h : p c = true
    · rw [List.dropWhile_cons_of_pos h]; exact ih
    · rw [List.dropWhile_cons_of_neg (by simp [h])]
      simpa [curByte] using (by simpa using h : p c = false)

theorem dropWhile_eq_drop {α : Type} (p : α → Bool) (l : List α) :
    l.dropWhile p = l.drop (l.takeWhile p).length := by
  have h := List.drop_left (l.takeWhile p) (l.dropWhile p)
  rw [List.takeWhile_append_dropWhile] at h
  exact h.symm

/-- `takeWhile` over a list that starts with an all-satisfying block and
continues with a failing byte returns exactly the block. -/
theorem takeWhile_append_all {p : Nat → Bool} {u v : List Nat}
    (hu : ∀ c ∈ u, p c = true) (hv : p (curByte v) = false) :
    (u ++ v).takeWhile p = u := by
  induction u with
  | nil =>
    cases v with
    | nil => rfl
    | cons d t =>
      rw [List.nil_append, List.takeWhile_cons_of_neg (by simp [show p d = false from hv])]
  | cons c u' ih =>
    rw [List.cons_append, List.takeWhile_cons_of_pos (hu c (by simp))]
    rw [ih (fun c hc => hu c (by simp [hc]))]

theorem dropWhile_append_all {p : Nat → Bool} {u v : List Nat}
    (hu : ∀ c ∈ u, p c = true) (hv : p (curByte v) = false) :
    (u ++ v).dropWhile p = v := by
  induction u with
  | nil =>
    cases v with
    | nil => rfl
    | cons d t =>
      rw [List.nil_append, List.dropWhile_cons_of_neg (by simp [show p d = false from hv])]
  | cons c u' ih =>
    rw [List.cons_append, List.dropWhile_cons_of_pos (hu c (by simp))]
    exact ih (fun c hc => hu c (by simp [hc]))

theorem cmpInt_succ_succ {x y : Nat} : cmpInt (x + 1) (y + 1) = cmpInt x y := by
  unfold cmpInt; split_ifs <;> omega

/-- `strncasecmp` over terminator-free prefixes is the lexicographic
comparison of the case-folded prefixes. -/
theorem strncasecmp_eq : ∀ (n : Nat) (a b : List Nat),
    (∀ c ∈ a.take n, c ≠ 0) → (∀ c ∈ b.take n, c ≠ 0) →
    strncasecmp n a b = listCmp cmpInt ((a.take n).map tolower) ((b.take n).map tolower)
  | 0, _, _, _, _ => rfl
  | n + 1, [], [], _, _ => by
    simp [strncasecmp, listCmp, curByte, tolower_zero]
  | n + 1, [], d :: bs, _, hb => by
    have hd : tolower d ≠ 0 := tolower_ne_zero (hb d (by simp))
    simp only [strncasecmp, curByte, List.headD, tolower_zero, List.take_nil,
      List.map_nil, List.take_succ_cons, List.map_cons, listCmp_nil_cons]
    rw [if_pos (Nat.pos_of_ne_zero hd)]
  | n + 1, c :: as, [], ha, _ => by
    have hc : tolower c ≠ 0 := tolower_ne_zero (ha c (by simp))
    simp only [strncasecmp, curByte, List.headD, tolower_zero, List.take_nil,
      List.map_nil, List.take_succ_cons, List.map_cons, listCmp_cons_nil]
    rw [if_neg (by omega), if_pos (Nat.pos_of_ne_zero hc)]
  | n + 1, c :: as, d :: bs, ha, hb => by
    have hc : tolower c ≠ 0 := tolower_ne_zero (ha c (by simp))
    simp only [strncasecmp, curByte, List.headD, List.take_succ_cons,
      List.map_cons, listCmp_cons]
    rcases Nat.lt_trichotomy (tolower c) (tolower d) with h | h | h
    · rw [if_pos h, if_pos (by simp [cmpInt_eq_negone.mpr h]), cmpInt_eq_negone.mpr h]
    · rw [if_neg (by omega), if_neg (by omega), if_neg (by simpa using hc),
        if_neg (by simp [cmpInt_eq_zero.mpr h])]
      exact strncasecmp_eq n as bs
        (fun x hx => ha x (by simp [List.take_succ_cons]; right; exact hx))
        (fun x hx => hb x (by simp [List.take_succ_cons]; right; exact hx))
    · rw [if_neg (by omega), if_pos h, if_pos (by simp [cmpInt_eq_one.mpr h]),
        cmpInt_eq_one.mpr h]

/-- `strncmp` over terminator-free prefixes is the lexicographic
comparison of the prefixes. -/
theorem strncmp_eq : ∀ (n : Nat) (a b : List Nat),
    (∀ c ∈ a.take n, c ≠ 0) → (∀ c ∈ b.take n, c ≠ 0) →
    strncmp n a b = listCmp cmpInt (a.take n) (b.take n)
  | 0, _, _, _, _ => rfl
  | n + 1, [], [], _, _ => by
    simp [strncmp, listCmp, curByte]
  | n + 1, [], d :: bs, _, hb => by
    have hd : d ≠ 0 := hb d (by simp)
    simp only [strncmp, curByte, List.headD, List.take_nil, List.take_succ_cons,
      listCmp_nil_cons]
    rw [if_pos (Nat.pos_of_ne_zero hd)]
  | n + 1, c :: as, [], ha, _ => by
    have hc : c ≠ 0 := ha c (by simp)
    simp only [strncmp, curByte, List.headD, List.take_nil, List.take_succ_cons,
      listCmp_cons_nil]
    rw [if_neg (by omega), if_pos (Nat.pos_of_ne_zero hc)]
  | n + 1, c :: as, d :: bs, ha, hb => by
    have hc : c ≠ 0 := ha c (by simp)
    simp only [strncmp, curByte, List.headD, List.take_succ_cons, listCmp_cons]
    rcases Nat.lt_trichotomy c d with h | h | h
    · rw [if_pos h, if_pos (by simp [cmpInt_eq_negone.mpr h]), cmpInt_eq_negone.mpr h]
    · rw [if_neg (by omega), if_neg (by omega), if_neg (by simpa using hc),
        if_neg (by simp [cmpInt_eq_zero.mpr h])]
      exact strncmp_eq n as bs
        (fun x hx => ha x (by simp [List.take_succ_cons]; right; exact hx))
        (fun x hx => hb x (by simp [List.take_succ_cons]; right; exact hx))
    · rw [if_neg (by omega), if_pos h, if_pos (by simp [cmpInt_eq_one.mpr h]),
        cmpInt_eq_one.mpr h]

/-- Comparing a common-length prefix and then breaking the tie by length
is the same as the lexicographic comparison of the full lists. -/
theorem prefix_then_length_eq_listCmp {α : Type} (c : α → α → Int) :
    ∀ (u v : List α),
    (if listCmp c (u.take (min u.length v.length)) (v.take (min u.length v.length)) ≠ 0
     then listCmp c (u.take (min u.length v.length)) (v.take (min u.length v.length))
     else cmpInt u.length v.length) = listCmp c u v
  | [], v => by
    simp only [List.length_nil, Nat.zero_min, List.take_zero, listCmp_nil_nil,
      ne_eq, not_true_eq_false, if_false]
    cases v with
    | nil => simp [listCmp_nil_nil, cmpInt]
    | cons y ys => simp [listCmp_nil_cons, cmpInt]
  | x :: xs, [] => by
    simp only [List.length_nil, Nat.min_zero, List.take_zero, listCmp_nil_nil,
      ne_eq, not_true_eq_false, if_false, listCmp_cons_nil]
    simp [cmpInt]
  | x :: xs, y :: ys => by
    have hmin : min (x :: xs).length (y :: ys).length = min xs.length ys.length + 1 := by
      simp [List.length_cons, Nat.succ_min_succ]
    rw [hmin]
    simp only [List.take_succ_cons, listCmp_cons, List.length_cons, cmpInt_succ_succ]
    by_cases hxy : c x y = 0
    · simp only [hxy, ne_eq, not_true_eq_false, if_false]
      exact prefix_then_length_eq_listCmp c xs ys
    · simp [hxy]

theorem tokenCmp_text_text {s t : List Nat} :
    tokenCmp (Token.text s) (Token.text t) = listCmp cmpInt (s.map tolower) (t.map tolower) := rfl

theorem tokenCmp_num_num {r s : List Nat} :
    tokenCmp (Token.num r) (Token.num s) =
      if cmpInt (skipLeadingZeros r).length (skipLeadingZeros s).length ≠ 0
      then cmpInt (skipLeadingZeros r).length (skipLeadingZeros s).length
      else if listCmp cmpInt (skipLeadingZeros r) (skipLeadingZeros s) ≠ 0
      then listCmp cmpInt (skipLeadingZeros r) (skipLeadingZeros s)
      else cmpInt r.length s.length := rfl

theorem tokenCmp_num_text {r s : List Nat} :
    tokenCmp (Token.num r) (Token.text s) = -1 := rfl

theorem tokenCmp_text_num {r s : List Nat} :
    tokenCmp (Token.text r) (Token.num s) = 1 := rfl

/-- A `take` of at most the `takeWhile` length reads from the original list. -/
theorem take_takeWhile_of_le {α : Type} (p : α → Bool) (l : List α) (m : Nat)
    (hm : m ≤ (l.takeWhile p).length) :
    (l.takeWhile p).take m = l.take m := by
  conv_lhs => rw [(List.prefix_iff_eq_take).mp (List.takeWhile_prefix p)]
  rw [List.take_take, Nat.min_eq_left hm]

/-- Characterization of the default non-digit strategy: its sign is the
lexicographic comparison of the case-folded non-digit runs, and the end
cursors are written (just past the runs) exactly when it reports 0. -/
theorem ascii_spec (a b : List Nat) :
    (natcmp_nondigit_cmp_ascii a b).1
        = tokenCmp (Token.text (a.takeWhile pN)) (Token.text (b.takeWhile pN)) ∧
    ((natcmp_nondigit_cmp_ascii a b).1 = 0 →
      (natcmp_nondigit_cmp_ascii a b).2 = some (a.dropWhile pN, b.dropWhile pN)) ∧
    ((natcmp_nondigit_cmp_ascii a b).1 ≠ 0 → (natcmp_nondigit_cmp_ascii a b).2 = none) := by
  have hta : a.take (min (a.takeWhile pN).length (b.takeWhile pN).length)
      = (a.takeWhile pN).take (min (a.takeWhile pN).length (b.takeWhile pN).length) :=
    (take_takeWhile_of_le pN a _ (Nat.min_le_left _ _)).symm
  have htb : b.take (min (a.takeWhile pN).length (b.takeWhile pN).length)
      = (b.takeWhile pN).take (min (a.takeWhile pN).length (b.takeWhile pN).length) :=
    (take_takeWhile_of_le pN b _ (Nat.min_le_right _ _)).symm
  have hmem : ∀ {s : List Nat} {m : Nat} {x : Nat}, x ∈ (s.takeWhile pN).take m → x ≠ 0 := by
    intro s m x hx
    exact (pN_iff.mp (List.mem_takeWhile_imp (List.take_subset m _ hx))).1
  have hcmp : strncasecmp (min (a.takeWhile pN).length (b.takeWhile pN).length) a b
      = listCmp cmpInt
          (((a.takeWhile pN).take (min (a.takeWhile pN).length (b.takeWhile pN).length)).map tolower)
          (((b.takeWhile pN).take (min (a.takeWhile pN).length (b.takeWhile pN).length)).map tolower) := by
    rw [strncasecmp_eq _ a b (fun c hc => hmem (hta ▸ hc)) (fun c hc => hmem (htb ▸ hc)),
      hta, htb]
  have key := prefix_then_length_eq_listCmp cmpInt
      ((a.takeWhile pN).map tolower) ((b.takeWhile pN).map tolower)
  rw [List.length_map, List.length_map, ← List.map_take, ← List.map_take] at key
  rcases (listCmp_lawful cmpInt_lawful).range
      (((a.takeWhile pN).take (min (a.takeWhile pN).length (b.takeWhile pN).length)).map tolower)
      (((b.takeWhile pN).take (min (a.takeWhile pN).length (b.takeWhile pN).length)).map tolower)
    with hP | hP | hP
  · rw [hP, if_pos (show ((-1 : Int) ≠ 0) by decide)] at key
    have hval : natcmp_nondigit_cmp_ascii a b = (-1, none) := by
      simp only [natcmp_nondigit_cmp_ascii]
      rw [hcmp, hP, if_pos (show ((-1 : Int) ≠ 0) by decide),
        if_pos (show ((-1 : Int) < 0) by decide)]
    rw [hval]
    exact ⟨by rw [tokenCmp_text_text, ← key], fun h => absurd h (by decide), fun _ => rfl⟩
  · rw [hP, if_neg (show ¬((0 : Int) ≠ 0) by decide)] at key
    by_cases hl : (a.takeWhile pN).length = (b.takeWhile pN).length
    · have hval : natcmp_nondigit_cmp_ascii a b
          = (0, some (a.dropWhile pN, b.dropWhile pN)) := by
        simp only [natcmp_nondigit_cmp_ascii]
        rw [hcmp, hP, if_neg (show ¬((0 : Int) ≠ 0) by decide), if_neg (by simpa using hl)]
        rw [← dropWhile_eq_drop pN a, ← dropWhile_eq_drop pN b]
      rw [hval]
      refine ⟨?_, fun _ => rfl, fun h => absurd rfl h⟩
      rw [tokenCmp_text_text, ← key, cmpInt_eq_zero.mpr hl]
    · rcases Nat.lt_trichotomy (a.takeWhile pN).length (b.takeWhile pN).length with h | h | h
      · have hval : natcmp_nondigit_cmp_ascii a b = (-1, none) := by
          simp only [natcmp_nondigit_cmp_ascii]
          rw [hcmp, hP, if_neg (show ¬((0 : Int) ≠ 0) by decide), if_pos hl, if_pos h]
        rw [hval]
        refine ⟨?_, fun h => absurd h (by decide), fun _ => rfl⟩
        rw [tokenCmp_text_text, ← key, cmpInt_eq_negone.mpr h]
      · exact absurd h hl
      · have hval : natcmp_nondigit_cmp_ascii a b = (1, none) := by
          simp only [natcmp_nondigit_cmp_ascii]
          rw [hcmp, hP, if_neg (show ¬((0 : Int) ≠ 0) by decide), if_pos hl,
            if_neg (by omega)]
        rw [hval]
        refine ⟨?_, fun h => absurd h (by decide), fun _ => rfl⟩
        rw [tokenCmp_text_text, ← key, cmpInt_eq_one.mpr h]
  · rw [hP, if_pos (show ((1 : Int) ≠ 0) by decide)] at key
    have hval : natcmp_nondigit_cmp_ascii a b = (1, none) := by
      simp only [natcmp_nondigit_cmp_ascii]
      rw [hcmp, hP, if_pos (show ((1 : Int) ≠ 0) by decide),
        if_neg (show ¬((1 : Int) < 0) by decide)]
    rw [hval]
    exact ⟨by rw [tokenCmp_text_text, ← key], fun h => absurd h (by decide), fun _ => rfl⟩

theorem skipLeadingZeros_eq_self {s : List Nat} (h : pD (curByte s) = false) :
    skipLeadingZeros s = s := by
  match s with
  | [] => rfl
  | [c] => rfl
  | c0 :: c1 :: rest =>
    rw [skipLeadingZeros, if_neg]
    rintro ⟨h48, -, -⟩
    rw [h48] at h
    exact absurd (show pD 48 = false from h) (by decide)

/-- The zero-skip scan over a digit run followed by a non-digit byte
factors through the run. -/
theorem skipLeadingZeros_append : ∀ {r rest : List Nat},
    (∀ c ∈ r, pD c = true) → pD (curByte rest) = false →
    skipLeadingZeros (r ++ rest) = skipLeadingZeros r ++ rest
  | [], rest, _, hrest => by
    rw [List.nil_append, skipLeadingZeros_eq_self hrest]; rfl
  | [c], rest, _, hrest => by
    cases rest with
    | nil => rfl
    | cons d t =>
      have hd : pD d = false := hrest
      show skipLeadingZeros (c :: d :: t) = skipLeadingZeros [c] ++ d :: t
      rw [skipLeadingZeros, if_neg]
      · rfl
      · rintro ⟨-, hd0, hdd⟩
        rw [pD_iff.mpr ⟨hd0, hdd⟩] at hd
        exact absurd hd (by decide)
  | c0 :: c1 :: r', rest, hr, hrest => by
    have h1 : c1 ≠ 0 ∧ isdigit c1 = true := pD_iff.mp (hr c1 (by simp))
    show skipLeadingZeros (c0 :: c1 :: (r' ++ rest)) = skipLeadingZeros (c0 :: c1 :: r') ++ rest
    by_cases h48 : c0 = 48
    · rw [skipLeadingZeros, if_pos ⟨h48, h1.1, h1.2⟩,
        show skipLeadingZeros (c0 :: c1 :: r') = skipLeadingZeros (c1 :: r') from by
          rw [skipLeadingZeros, if_pos ⟨h48, h1.1, h1.2⟩]]
      exact skipLeadingZeros_append (r := c1 :: r')
        (fun c hc => hr c (List.mem_cons_of_mem c0 hc)) hrest
    · rw [skipLeadingZeros, if_neg (fun h => h48 h.1),
        show skipLeadingZeros (c0 :: c1 :: r') = c0 :: c1 :: r' from by
          rw [skipLeadingZeros, if_neg (fun h => h48 h.1)]]
      rfl

/-- A list is a block of leading zeros followed by its zero-skipped tail. -/
theorem skipLeadingZeros_replicate : ∀ (r : List Nat),
    ∃ k, r = List.replicate k 48 ++ skipLeadingZeros r
  | [] => ⟨0, rfl⟩
  | [c] => ⟨0, rfl⟩
  | c0 :: c1 :: r' => by
    by_cases h : c0 = 48 ∧ c1 ≠ 0 ∧ isdigit c1 = true
    · rw [skipLeadingZeros, if_pos h]
      obtain ⟨k, hk⟩ := skipLeadingZeros_replicate (c1 :: r')
      refine ⟨k + 1, ?_⟩
      rw [List.replicate_succ, List.cons_append, ← hk, h.1]
    · rw [skipLeadingZeros, if_neg h]
      exact ⟨0, rfl⟩

theorem skipLeadingZeros_facts (s : List Nat) :
    skipLeadingZeros s = skipLeadingZeros (s.takeWhile pD) ++ s.dropWhile pD ∧
    (∀ c ∈ skipLeadingZeros (s.takeWhile pD), pD c = true) := by
  have hr : ∀ c ∈ s.takeWhile pD, pD c = true := fun c hc => List.mem_takeWhile_imp hc
  have hrest : pD (curByte (s.dropWhile pD)) = false := curByte_dropWhile pD_zero s
  obtain ⟨k, hk⟩ := skipLeadingZeros_replicate (s.takeWhile pD)
  refine ⟨?_, fun c hc => hr c (by rw [hk]; exact List.mem_append_right _ hc)⟩
  conv_lhs => rw [← List.takeWhile_append_dropWhile (p := pD) (l := s)]
  exact skipLeadingZeros_append hr hrest

theorem skip_takeWhile_len (s : List Nat) :
    ((skipLeadingZeros s).takeWhile pD).length
      = (skipLeadingZeros (s.takeWhile pD)).length := by
  obtain ⟨hdec, hmem⟩ := skipLeadingZeros_facts s
  rw [hdec, takeWhile_append_all hmem (curByte_dropWhile pD_zero s)]

theorem skip_take (s : List Nat) :
    (skipLeadingZeros s).take (skipLeadingZeros (s.takeWhile pD)).length
      = skipLeadingZeros (s.takeWhile pD) := by
  obtain ⟨hdec, _⟩ := skipLeadingZeros_facts s
  rw [hdec, List.take_left]

theorem skip_drop (s : List Nat) :
    (skipLeadingZeros s).drop (skipLeadingZeros (s.takeWhile pD)).length
      = s.dropWhile pD := by
  obtain ⟨hdec, _⟩ := skipLeadingZeros_facts s
  rw [hdec, List.drop_left]

theorem len_sub_dropWhile (s : List Nat) :
    s.length - (s.dropWhile pD).length = (s.takeWhile pD).length := by
  have h := congrArg List.length (List.takeWhile_append_dropWhile pD s)
  rw [List.length_append] at h
  omega

/-- Characterization of the digit-run section: its sign is the token
comparison of the two digit runs, and the cursors advance past the full
runs exactly when it reports 0. -/
theorem digits_spec (a b : List Nat) :
    (natcmp_digits a b).1
        = tokenCmp (Token.num (a.takeWhile pD)) (Token.num (b.takeWhile pD)) ∧
    ((natcmp_digits a b).1 = 0 →
      (natcmp_digits a b).2 = (a.dropWhile pD, b.dropWhile pD)) := by
  rw [tokenCmp_num_num]
  by_cases h1 : (skipLeadingZeros (a.takeWhile pD)).length
      = (skipLeadingZeros (b.takeWhile pD)).length
  case neg =>
    have hval : natcmp_digits a b
        = ((if (skipLeadingZeros (a.takeWhile pD)).length
              < (skipLeadingZeros (b.takeWhile pD)).length then -1 else 1), a, b) := by
      simp only [natcmp_digits]
      rw [skip_takeWhile_len a, skip_takeWhile_len b, if_pos h1]
    rw [if_pos (show cmpInt (skipLeadingZeros (a.takeWhile pD)).length
          (skipLeadingZeros (b.takeWhile pD)).length ≠ 0
        from fun h => h1 (cmpInt_eq_zero.mp h)), hval]
    constructor
    · rcases Nat.lt_trichotomy (skipLeadingZeros (a.takeWhile pD)).length
          (skipLeadingZeros (b.takeWhile pD)).length with h | h | h
      · rw [if_pos h, cmpInt_eq_negone.mpr h]
      · exact absurd h h1
      · rw [if_neg (by omega), cmpInt_eq_one.mpr h]
    · intro h
      rcases Nat.lt_trichotomy (skipLeadingZeros (a.takeWhile pD)).length
          (skipLeadingZeros (b.takeWhile pD)).length with h' | h' | h'
      · rw [if_pos h'] at h; exact absurd (show (-1 : Int) = 0 from h) (by decide)
      · exact absurd h' h1
      · rw [if_neg (by omega)] at h; exact absurd (show (1 : Int) = 0 from h) (by decide)
  case pos =>
    have hmemA : ∀ c ∈ (skipLeadingZeros a).take (skipLeadingZeros (a.takeWhile pD)).length,
        c ≠ 0 := by
      intro c hc
      rw [skip_take a] at hc
      exact (pD_iff.mp ((skipLeadingZeros_facts a).2 c hc)).1
    have hmemB : ∀ c ∈ (skipLeadingZeros b).take (skipLeadingZeros (a.takeWhile pD)).length,
        c ≠ 0 := by
      intro c hc
      rw [h1, skip_take b] at hc
      exact (pD_iff.mp ((skipLeadingZeros_facts b).2 c hc)).1
    have hstr : strncmp (skipLeadingZeros (a.takeWhile pD)).length
        (skipLeadingZeros a) (skipLeadingZeros b)
        = listCmp cmpInt (skipLeadingZeros (a.takeWhile pD))
            (skipLeadingZeros (b.takeWhile pD)) := by
      rw [strncmp_eq _ _ _ hmemA hmemB, skip_take a, h1, skip_take b]
    rw [if_neg (show ¬ cmpInt (skipLeadingZeros (a.takeWhile pD)).length
          (skipLeadingZeros (b.takeWhile pD)).length ≠ 0
        from by simp [cmpInt_eq_zero.mpr h1])]
    by_cases h2 : listCmp cmpInt (skipLeadingZeros (a.takeWhile pD))
        (skipLeadingZeros (b.takeWhile pD)) = 0
    case neg =>
      have hval : natcmp_digits a b
          = ((if listCmp cmpInt (skipLeadingZeros (a.takeWhile pD))
                (skipLeadingZeros (b.takeWhile pD)) < 0 then -1 else 1), a, b) := by
        simp only [natcmp_digits]
        rw [skip_takeWhile_len a, skip_takeWhile_len b, if_neg (by omega), hstr, if_pos h2]
      rw [if_pos h2, hval]
      constructor
      · rcases (listCmp_lawful cmpInt_lawful).range (skipLeadingZeros (a.takeWhile pD))
            (skipLeadingZeros (b.takeWhile pD)) with h | h | h
        · rw [h, if_pos (by decide)]
        · exact absurd h h2
        · rw [h, if_neg (by decide)]
      · intro h
        rcases (listCmp_lawful cmpInt_lawful).range (skipLeadingZeros (a.takeWhile pD))
            (skipLeadingZeros (b.takeWhile pD)) with h' | h' | h'
        · rw [h', if_pos (by decide)] at h
          exact absurd (show (-1 : Int) = 0 from h) (by decide)
        · exact absurd h' h2
        · rw [h', if_neg (by decide)] at h
          exact absurd (show (1 : Int) = 0 from h) (by decide)
    case pos =>
      rw [if_neg (show ¬ listCmp cmpInt (skipLeadingZeros (a.takeWhile pD))
            (skipLeadingZeros (b.takeWhile pD)) ≠ 0 from by simp [h2])]
      by_cases h3 : (a.takeWhile pD).length = (b.takeWhile pD).length
      case pos =>
        have hval : natcmp_digits a b = (0, a.dropWhile pD, b.dropWhile pD) := by
          simp only [natcmp_digits]
          rw [skip_takeWhile_len a, skip_takeWhile_len b, if_neg (by omega), hstr,
            if_neg (by simp [h2]), skip_drop a, skip_drop b, len_sub_dropWhile a,
            len_sub_dropWhile b, if_neg (by omega)]
        rw [cmpInt_eq_zero.mpr h3, hval]
        exact ⟨rfl, fun _ => rfl⟩
      case neg =>
        have hval : natcmp_digits a b
            = ((if (a.takeWhile pD).length < (b.takeWhile pD).length then -1 else 1),
               a, b) := by
          simp only [natcmp_digits]
          rw [skip_takeWhile_len a, skip_takeWhile_len b, if_neg (by omega), hstr,
            if_neg (by simp [h2]), skip_drop a, skip_drop b, len_sub_dropWhile a,
            len_sub_dropWhile b, if_pos h3]
        rw [hval]
        constructor
        · rcases Nat.lt_trichotomy (a.takeWhile pD).length (b.takeWhile pD).length
            with h | h | h
          · rw [if_pos h, cmpInt_eq_negone.mpr h]
          · exact absurd h h3
          · rw [if_neg (by omega), cmpInt_eq_one.mpr h]
        · intro h
          rcases Nat.lt_trichotomy (a.takeWhile pD).length (b.takeWhile pD).length
            with h' | h' | h'
          · rw [if_pos h'] at h; exact absurd (show (-1 : Int) = 0 from h) (by decide)
          · exact absurd h' h3
          · rw [if_neg (by omega)] at h; exact absurd (show (1 : Int) = 0 from h) (by decide)

theorem isdigit_of_not_pN {c : Nat} (h : pN c = false) (h0 : c ≠ 0) :
    isdigit c = true := by
  by_cases hd : isdigit c = true
  · exact hd
  · rw [pN_iff.mpr ⟨h0, by simpa using hd⟩] at h
    exact absurd h (by decide)

theorem tokens_nil {s : List Nat} (h : curByte s = 0) : tokens s = [] := by
  rw [tokens, dif_pos h]

theorem tokens_num {s : List Nat} (h0 : curByte s ≠ 0) (hd : isdigit (curByte s) = true) :
    tokens s = Token.num (s.takeWhile pD) :: tokens (s.dropWhile pD) := by
  rw [tokens, dif_neg h0, dif_pos hd]

theorem tokens_text {s : List Nat} (h0 : curByte s ≠ 0) (hd : isdigit (curByte s) = false) :
    tokens s = Token.text (s.takeWhile pN) :: tokens (s.dropWhile pN) := by
  rw [tokens, dif_neg h0, dif_neg (by simp [hd])]

theorem tokens_ne_nil {s : List Nat} (h : curByte s ≠ 0) : tokens s ≠ [] := by
  by_cases hd : isdigit (curByte s) = true
  · rw [tokens_num h hd]; exact List.cons_ne_nil _ _
  · rw [tokens_text h (by simpa using hd)]; exact List.cons_ne_nil _ _

/-- The final return of the loop agrees with the tokenized comparison
whenever at least one cursor is at its terminator. -/
theorem final_spec {a b : List Nat} (h : curByte a = 0 ∨ curByte b = 0) :
    natcmp_final a b = specCmp a b := by
  unfold natcmp_final specCmp
  rcases h with h | h
  · rw [tokens_nil h]
    by_cases hb : curByte b = 0
    · rw [tokens_nil hb, if_neg (by simp [hb]), if_neg (by simp [h])]
      rfl
    · obtain ⟨t, ts, ht⟩ := List.exists_cons_of_ne_nil (tokens_ne_nil hb)
      rw [ht, if_pos hb]
      rfl
  · rw [tokens_nil h, if_neg (by simp [h])]
    by_cases ha : curByte a = 0
    · rw [tokens_nil ha, if_neg (by simp [ha])]
      rfl
    · obtain ⟨t, ts, ht⟩ := List.exists_cons_of_ne_nil (tokens_ne_nil ha)
      rw [ht, if_pos ha]
      rfl

/-- The digit-run section followed by a recursive call on the advanced
cursors computes the tokenized comparison, assuming the loop does so at
the smaller fuel. -/
theorem digit_branch_eq {n : Nat} {x y : List Nat}
    (hx0 : curByte x ≠ 0) (hy0 : curByte y ≠ 0)
    (hdx : isdigit (curByte x) = true) (hdy : isdigit (curByte y) = true)
    (hn : x.length ≤ n)
    (ih : ∀ u v : List Nat, u.length < n →
      natcmpLoop natcmp_nondigit_cmp_ascii n u v = some (specCmp u v)) :
    (if (natcmp_digits x y).1 ≠ 0 then some (natcmp_digits x y).1
     else natcmpLoop natcmp_nondigit_cmp_ascii n
       (natcmp_digits x y).2.1 (natcmp_digits x y).2.2)
      = some (specCmp x y) := by
  obtain ⟨hd1, hd2⟩ := digits_spec x y
  have hspec : specCmp x y
      = if tokenCmp (Token.num (x.takeWhile pD)) (Token.num (y.takeWhile pD)) ≠ 0
        then tokenCmp (Token.num (x.takeWhile pD)) (Token.num (y.takeWhile pD))
        else specCmp (x.dropWhile pD) (y.dropWhile pD) := by
    unfold specCmp
    rw [tokens_num hx0 hdx, tokens_num hy0 hdy, listCmp_cons]
  by_cases hz : (natcmp_digits x y).1 = 0
  · rw [if_neg (by simpa using hz), hd2 hz]
    have ht0 : tokenCmp (Token.num (x.takeWhile pD)) (Token.num (y.takeWhile pD)) = 0 := by
      rw [← hd1]; exact hz
    rw [hspec, if_neg (show ¬ tokenCmp (Token.num (x.takeWhile pD))
        (Token.num (y.takeWhile pD)) ≠ 0 from by simp [ht0])]
    exact ih (x.dropWhile pD) (y.dropWhile pD) (by
      have h1 := length_dropWhile_lt_of_head hx0 (pD_iff.mpr ⟨hx0, hdx⟩)
      omega)
  · rw [if_pos hz, hspec, if_pos (by rw [← hd1]; exact hz), hd1]

/-- Main loop equivalence: with the default ASCII strategy and enough
fuel, `natcmpLoop` computes the tokenized comparison. -/
theorem natcmpLoop_eq_spec : ∀ (fuel : Nat) (a b : List Nat), a.length < fuel →
    natcmpLoop natcmp_nondigit_cmp_ascii fuel a b = some (specCmp a b) := by
  intro fuel
  induction fuel with
  | zero => intro a b h; omega
  | succ n ih =>
    intro a b hlen
    simp only [natcmpLoop]
    by_cases hab : curByte a ≠ 0 ∧ curByte b ≠ 0
    case neg =>
      rw [if_neg hab, final_spec (show curByte a = 0 ∨ curByte b = 0 by tauto)]
    case pos =>
      rw [if_pos hab]
      obtain ⟨ha0, hb0⟩ := hab
      by_cases hnn : ¬ isdigit (curByte a) = true ∧ ¬ isdigit (curByte b) = true
      case pos =>
        rw [if_pos hnn]
        obtain ⟨hs1, hs2, hs3⟩ := ascii_spec a b
        have hdA : isdigit (curByte a) = false := by simpa using hnn.1
        have hdB : isdigit (curByte b) = false := by simpa using hnn.2
        have hspec : specCmp a b
            = if tokenCmp (Token.text (a.takeWhile pN)) (Token.text (b.takeWhile pN)) ≠ 0
              then tokenCmp (Token.text (a.takeWhile pN)) (Token.text (b.takeWhile pN))
              else specCmp (a.dropWhile pN) (b.dropWhile pN) := by
          unfold specCmp
          rw [tokens_text ha0 hdA, tokens_text hb0 hdB, listCmp_cons]
        by_cases hz : (natcmp_nondigit_cmp_ascii a b).1 = 0
        case neg =>
          rw [if_pos (show (natcmp_nondigit_cmp_ascii a b).1 ≠ 0 from hz), hspec,
            if_pos (show tokenCmp (Token.text (a.takeWhile pN))
                (Token.text (b.takeWhile pN)) ≠ 0 from by rw [← hs1]; exact hz)]
          rcases tokenCmp_lawful.range (Token.text (a.takeWhile pN))
              (Token.text (b.takeWhile pN)) with h2 | h2 | h2
          · rw [hs1, h2, if_pos (by decide)]
          · exact absurd (hs1.trans h2) hz
          · rw [hs1, h2, if_neg (by decide)]
        case pos =>
          rw [if_neg (show ¬ (natcmp_nondigit_cmp_ascii a b).1 ≠ 0 from by simp [hz]),
            hs2 hz]
          simp only []
          have ht0 : tokenCmp (Token.text (a.takeWhile pN))
              (Token.text (b.takeWhile pN)) = 0 := by
            rw [← hs1]; exact hz
          have hrw : specCmp a b = specCmp (a.dropWhile pN) (b.dropWhile pN) := by
            rw [hspec, if_neg (show ¬ tokenCmp (Token.text (a.takeWhile pN))
                (Token.text (b.takeWhile pN)) ≠ 0 from by simp [ht0])]
          have hlenA : (a.dropWhile pN).length < a.length :=
            length_dropWhile_lt_of_head ha0 (pN_iff.mpr ⟨ha0, hdA⟩)
          by_cases hend : curByte (a.dropWhile pN) = 0 ∨ curByte (b.dropWhile pN) = 0
          · rw [if_pos hend, final_spec hend, hrw]
          · rw [if_neg hend]
            push_neg at hend
            have hdea : isdigit (curByte (a.dropWhile pN)) = true :=
              isdigit_of_not_pN (curByte_dropWhile pN_zero a) hend.1
            have hdeb : isdigit (curByte (b.dropWhile pN)) = true :=
              isdigit_of_not_pN (curByte_dropWhile pN_zero b) hend.2
            rw [if_neg (show ¬ isdigit (curByte (a.dropWhile pN))
                ≠ isdigit (curByte (b.dropWhile pN)) from by simp [hdea, hdeb]), hrw]
            exact digit_branch_eq hend.1 hend.2 hdea hdeb (by omega) ih
      case neg =>
        rw [if_neg hnn]
        by_cases hmis : isdigit (curByte a) ≠ isdigit (curByte b)
        case pos =>
          rw [if_pos hmis]
          by_cases hda : isdigit (curByte a) = true
          · have hdb : isdigit (curByte b) = false := by
              cases hX : isdigit (curByte b) with
              | false => rfl
              | true => exact absurd (hda.trans hX.symm) hmis
            rw [if_pos hda]
            have hs : specCmp a b = -1 := by
              unfold specCmp
              rw [tokens_num ha0 hda, tokens_text hb0 hdb, listCmp_cons,
                tokenCmp_num_text, if_pos (by decide)]
            rw [hs]
          · have hda' : isdigit (curByte a) = false := by simpa using hda
            have hdb : isdigit (curByte b) = true := by
              cases hX : isdigit (curByte b) with
              | false => exact absurd (hda'.trans hX.symm) hmis
              | true => rfl
            rw [if_neg hda]
            have hs : specCmp a b = 1 := by
              unfold specCmp
              rw [tokens_text ha0 hda', tokens_num hb0 hdb, listCmp_cons,
                tokenCmp_text_num, if_pos (by decide)]
            rw [hs]
        case neg =>
          rw [if_neg hmis]
          have heq : isdigit (curByte a) = isdigit (curByte b) := by
            by_contra hne
            exact hmis hne
          have hda : isdigit (curByte a) = true := by
            cases hX : isdigit (curByte a) with
            | true => rfl
            | false => exact absurd ⟨by simp [hX], by rw [← heq]; simp [hX]⟩ hnn
          have hdb : isdigit (curByte b) = true := by
            rw [← heq]; exact hda
          exact digit_branch_eq ha0 hb0 hda hdb (by omega) ih

/-- `natcmp` with the default strategy computes the tokenized comparison. -/
theorem natcmp_eq_spec (a b : List Nat) : natcmp a b none = some (specCmp a b) :=
  natcmpLoop_eq_spec (a.length + b.length + 1) a b (by omega)

theorem natcmpA_eq_spec (a b : List Nat) : natcmpA a b = specCmp a b := by
  rw [natcmpA, natcmp_eq_spec]; rfl

theorem LawfulCmp.cmp_refl {α : Type} {c : α → α → Int} (h : LawfulCmp c) (x : α) :
    c x x = 0 := by
  have := h.flip x x
  omega

theorem isdigit_eq_decide (c : Nat) : isdigit c = decide (48 ≤ c ∧ c ≤ 57) := by
  unfold isdigit
  by_cases h1 : 48 ≤ c <;> by_cases h2 : c ≤ 57 <;> simp [h1, h2]

theorem isdigit_tolower {c : Nat} : isdigit (tolower c) = isdigit c := by
  rw [isdigit_eq_decide, isdigit_eq_decide]
  unfold tolower
  split
  · rename_i h
    simp only [Bool.and_eq_true, decide_eq_true_eq] at h
    rw [decide_eq_decide]
    omega
  · rfl

theorem tolower_eq_zero_iff {c : Nat} : tolower c = 0 ↔ c = 0 := by
  unfold tolower
  split
  · rename_i h
    simp only [Bool.and_eq_true, decide_eq_true_eq] at h
    omega
  · exact Iff.rfl

theorem tolower_of_isdigit {c : Nat} (h : isdigit c = true) : tolower c = c := by
  rw [isdigit_eq_decide] at h
  simp only [decide_eq_true_eq] at h
  unfold tolower
  rw [if_neg]
  simp only [Bool.and_eq_true, decide_eq_true_eq, not_and]
  omega

theorem pN_tolower {c : Nat} : pN (tolower c) = pN c := by
  unfold pN
  rw [isdigit_tolower]
  by_cases h : c = 0
  · rw [h, tolower_zero]
  · rw [show (tolower c != 0) = true from by simp [tolower_ne_zero h],
      show (c != 0) = true from by simp [h]]

theorem pD_tolower {c : Nat} : pD (tolower c) = pD c := by
  unfold pD
  rw [isdigit_tolower]
  by_cases h : c = 0
  · rw [h, tolower_zero]
  · rw [show (tolower c != 0) = true from by simp [tolower_ne_zero h],
      show (c != 0) = true from by simp [h]]

theorem takeWhile_fold {p : Nat → Bool} (hp : ∀ c, p (tolower c) = p c) (l : List Nat) :
    (l.map tolower).takeWhile p = (l.takeWhile p).map tolower := by
  rw [List.takeWhile_map, show (p ∘ tolower) = p from funext hp]

theorem dropWhile_fold {p : Nat → Bool} (hp : ∀ c, p (tolower c) = p c) (l : List Nat) :
    (l.map tolower).dropWhile p = (l.dropWhile p).map tolower := by
  rw [List.dropWhile_map, show (p ∘ tolower) = p from funext hp]

theorem curByte_map (l : List Nat) : curByte (l.map tolower) = tolower (curByte l) := by
  cases l with
  | nil => rw [List.map_nil]; exact tolower_zero.symm
  | cons c t => rfl

theorem map_tolower_digit_run {r : List Nat} (hr : ∀ c ∈ r, pD c = true) :
    r.map tolower = r := by
  induction r with
  | nil => rfl
  | cons c t ih =>
    rw [List.map_cons, tolower_of_isdigit (pD_iff.mp (hr c (by simp))).2,
      ih (fun x hx => hr x (by simp [hx]))]

theorem listCmp_cmpInt_eq_zero : ∀ {u v : List Nat}, listCmp cmpInt u v = 0 ↔ u = v
  | [], [] => by simp [listCmp_nil_nil]
  | [], _ :: _ => by simp [listCmp_nil_cons]
  | _ :: _, [] => by simp [listCmp_cons_nil]
  | x :: xs, y :: ys => by
    rw [listCmp_cons]
    by_cases h : cmpInt x y = 0
    · rw [if_neg (by simpa using h), listCmp_cmpInt_eq_zero]
      have hxy := cmpInt_eq_zero.mp h
      constructor
      · intro ht; rw [hxy, ht]
      · intro ht
        injection ht
    · rw [if_pos h]
      constructor
      · intro hh; exact absurd hh h
      · intro hh
        injection hh with h1 h2
        exact absurd (cmpInt_eq_zero.mpr h1) h

theorem num_run_eq {r s : List Nat}
    (hsig : skipLeadingZeros r = skipLeadingZeros s)
    (hlen : r.length = s.length) : r = s := by
  obtain ⟨k1, h1⟩ := skipLeadingZeros_replicate r
  obtain ⟨k2, h2⟩ := skipLeadingZeros_replicate s
  have hk : k1 = k2 := by
    have e1 := congrArg List.length h1
    have e2 := congrArg List.length h2
    rw [List.length_append, List.length_replicate] at e1 e2
    rw [hsig] at e1
    omega
  rw [h1, h2, hk, hsig]

theorem tokenCmp_num_zero {r s : List Nat}
    (h : tokenCmp (Token.num r) (Token.num s) = 0) : r = s := by
  rw [tokenCmp_num_num] at h
  by_cases h1 : cmpInt (skipLeadingZeros r).length (skipLeadingZeros s).length = 0
  · rw [if_neg (by simpa using h1)] at h
    by_cases h2 : listCmp cmpInt (skipLeadingZeros r) (skipLeadingZeros s) = 0
    · rw [if_neg (by simpa using h2)] at h
      exact num_run_eq (listCmp_cmpInt_eq_zero.mp h2) (cmpInt_eq_zero.mp h)
    · rw [if_pos h2] at h
      exact absurd h h2
  · rw [if_pos h1] at h
    exact absurd h h1

theorem specCmp_nil_iff {b : List Nat} (hb : 0 ∉ b) :
    (specCmp [] b = 0 ↔ ([] : List Nat).map tolower = b.map tolower) := by
  cases b with
  | nil =>
    have h0 : specCmp [] [] = 0 := by
      unfold specCmp; rw [tokens_nil (s := []) rfl]; rfl
    exact ⟨fun _ => rfl, fun _ => h0⟩
  | cons c bt =>
    have hc : c ≠ 0 := fun h => hb (by rw [← h]; exact List.mem_cons_self c bt)
    obtain ⟨t, ts, ht⟩ := List.exists_cons_of_ne_nil (tokens_ne_nil (s := c :: bt) hc)
    have hval : specCmp [] (c :: bt) = -1 := by
      unfold specCmp; rw [tokens_nil (s := []) rfl, ht, listCmp_nil_cons]
    rw [hval]
    constructor
    · intro h; exact absurd h (by decide)
    · intro h; exact absurd h (by simp)

theorem specCmp_nil_right_iff {a : List Nat} (ha : 0 ∉ a) :
    (specCmp a [] = 0 ↔ a.map tolower = ([] : List Nat).map tolower) := by
  cases a with
  | nil =>
    have h0 : specCmp [] [] = 0 := by
      unfold specCmp; rw [tokens_nil (s := []) rfl]; rfl
    exact ⟨fun _ => rfl, fun _ => h0⟩
  | cons c at' =>
    have hc : c ≠ 0 := fun h => ha (by rw [← h]; exact List.mem_cons_self c at')
    obtain ⟨t, ts, ht⟩ := List.exists_cons_of_ne_nil (tokens_ne_nil (s := c :: at') hc)
    have hval : specCmp (c :: at') [] = 1 := by
      unfold specCmp; rw [tokens_nil (s := []) rfl, ht, listCmp_cons_nil]
    rw [hval]
    constructor
    · intro h; exact absurd h (by decide)
    · intro h; exact absurd h (by simp)

/-- Equivalence of the tokenized comparison with case-folded byte
equality, for terminator-free strings. -/
theorem specCmp_eq_zero_iff : ∀ (n : Nat) (a b : List Nat), a.length ≤ n →
    0 ∉ a → 0 ∉ b → (specCmp a b = 0 ↔ a.map tolower = b.map tolower) := by
  intro n
  induction n with
  | zero =>
    intro a b hlen ha hb
    have haz : a = [] := List.length_eq_zero.mp (Nat.le_zero.mp hlen)
    subst haz
    exact specCmp_nil_iff hb
  | succ n ih =>
    intro a b hlen ha hb
    by_cases ha0 : curByte a = 0
    · have haz : a = [] := by
        cases a with
        | nil => rfl
        | cons c t =>
          exact absurd (show (0 : Nat) ∈ c :: t from by
            rw [← show c = 0 from ha0]; exact List.mem_cons_self c t) ha
      subst haz
      exact specCmp_nil_iff hb
    · by_cases hb0 : curByte b = 0
      · have hbz : b = [] := by
          cases b with
          | nil => rfl
          | cons c t =>
            exact absurd (show (0 : Nat) ∈ c :: t from by
              rw [← show c = 0 from hb0]; exact List.mem_cons_self c t) hb
        subst hbz
        exact specCmp_nil_right_iff ha
      · by_cases hda : isdigit (curByte a) = true
        · by_cases hdb : isdigit (curByte b) = true
          · -- both on digit runs
            have hsp : specCmp a b
                = if tokenCmp (Token.num (a.takeWhile pD)) (Token.num (b.takeWhile pD)) ≠ 0
                  then tokenCmp (Token.num (a.takeWhile pD)) (Token.num (b.takeWhile pD))
                  else specCmp (a.dropWhile pD) (b.dropWhile pD) := by
              unfold specCmp
              rw [tokens_num ha0 hda, tokens_num hb0 hdb, listCmp_cons]
            have hihd := ih (a.dropWhile pD) (b.dropWhile pD)
              (by have := length_dropWhile_lt_of_head ha0 (pD_iff.mpr ⟨ha0, hda⟩); omega)
              (fun h => ha (List.dropWhile_subset pD h))
              (fun h => hb (List.dropWhile_subset pD h))
            rw [hsp]
            constructor
            · intro h
              by_cases ht : tokenCmp (Token.num (a.takeWhile pD))
                  (Token.num (b.takeWhile pD)) = 0
              case neg => rw [if_pos ht] at h; exact absurd h ht
              case pos =>
                rw [if_neg (by simpa using ht)] at h
                have hrun : a.takeWhile pD = b.takeWhile pD := tokenCmp_num_zero ht
                have hrest := hihd.mp h
                conv_lhs => rw [← List.takeWhile_append_dropWhile (p := pD) (l := a)]
                conv_rhs => rw [← List.takeWhile_append_dropWhile (p := pD) (l := b)]
                rw [List.map_append, List.map_append, hrun, hrest]
            · intro h
              have hrun : a.takeWhile pD = b.takeWhile pD := by
                have h1 : (a.takeWhile pD).map tolower = (b.takeWhile pD).map tolower := by
                  rw [← takeWhile_fold (fun c => pD_tolower) a,
                    ← takeWhile_fold (fun c => pD_tolower) b, h]
                rwa [map_tolower_digit_run (fun c hc => List.mem_takeWhile_imp hc),
                  map_tolower_digit_run (fun c hc => List.mem_takeWhile_imp hc)] at h1
              have hrest : (a.dropWhile pD).map tolower = (b.dropWhile pD).map tolower := by
                rw [← dropWhile_fold (fun c => pD_tolower) a,
                  ← dropWhile_fold (fun c => pD_tolower) b, h]
              rw [if_neg (show ¬ tokenCmp (Token.num (a.takeWhile pD))
                  (Token.num (b.takeWhile pD)) ≠ 0 from by
                rw [hrun, tokenCmp_lawful.cmp_refl]; simp)]
              exact hihd.mpr hrest
          · -- digit vs non-digit head
            have hval : specCmp a b = -1 := by
              unfold specCmp
              rw [tokens_num ha0 hda, tokens_text hb0 (by simpa using hdb), listCmp_cons,
                tokenCmp_num_text, if_pos (by decide)]
            rw [hval]
            constructor
            · intro h; exact absurd h (by decide)
            · intro h
              exfalso
              have hhead : tolower (curByte a) = tolower (curByte b) := by
                rw [← curByte_map, ← curByte_map, h]
              have hcl : isdigit (curByte a) = isdigit (curByte b) := by
                rw [← isdigit_tolower (c := curByte a),
                  ← isdigit_tolower (c := curByte b), hhead]
              rw [hda] at hcl
              exact hdb hcl.symm
        · by_cases hdb : isdigit (curByte b) = true
          · -- non-digit vs digit head
            have hval : specCmp a b = 1 := by
              unfold specCmp
              rw [tokens_text ha0 (by simpa using hda), tokens_num hb0 hdb, listCmp_cons,
                tokenCmp_text_num, if_pos (by decide)]
            rw [hval]
            constructor
            · intro h; exact absurd h (by decide)
            · intro h
              exfalso
              have hhead : tolower (curByte a) = tolower (curByte b) := by
                rw [← curByte_map, ← curByte_map, h]
              have hcl : isdigit (curByte a) = isdigit (curByte b) := by
                rw [← isdigit_tolower (c := curByte a),
                  ← isdigit_tolower (c := curByte b), hhead]
              rw [hdb] at hcl
              exact hda hcl
          · -- both on non-digit runs
            have hda' : isdigit (curByte a) = false := by simpa using hda
            have hdb' : isdigit (curByte b) = false := by simpa using hdb
            have hsp : specCmp a b
                = if tokenCmp (Token.text (a.takeWhile pN)) (Token.text (b.takeWhile pN)) ≠ 0
                  then tokenCmp (Token.text (a.takeWhile pN)) (Token.text (b.takeWhile pN))
                  else specCmp (a.dropWhile pN) (b.dropWhile pN) := by
              unfold specCmp
              rw [tokens_text ha0 hda', tokens_text hb0 hdb', listCmp_cons]
            have hihd := ih (a.dropWhile pN) (b.dropWhile pN)
              (by have := length_dropWhile_lt_of_head ha0 (pN_iff.mpr ⟨ha0, hda'⟩); omega)
              (fun h => ha (List.dropWhile_subset pN h))
              (fun h => hb (List.dropWhile_subset pN h))
            rw [hsp]
            constructor
            · intro h
              by_cases ht : tokenCmp (Token.text (a.takeWhile pN))
                  (Token.text (b.takeWhile pN)) = 0
              case neg => rw [if_pos ht] at h; exact absurd h ht
              case pos =>
                rw [if_neg (by simpa using ht)] at h
                have hrunf : (a.takeWhile pN).map tolower = (b.takeWhile pN).map tolower := by
                  rw [tokenCmp_text_text] at ht
                  exact listCmp_cmpInt_eq_zero.mp ht
                have hrest := hihd.mp h
                conv_lhs => rw [← List.takeWhile_append_dropWhile (p := pN) (l := a)]
                conv_rhs => rw [← List.takeWhile_append_dropWhile (p := pN) (l := b)]
                rw [List.map_append, List.map_append, hrunf, hrest]
            · intro h
              have hrunf : (a.takeWhile pN).map tolower = (b.takeWhile pN).map tolower := by
                rw [← takeWhile_fold (fun c => pN_tolower) a,
                  ← takeWhile_fold (fun c => pN_tolower) b, h]
              have hrest : (a.dropWhile pN).map tolower = (b.dropWhile pN).map tolower := by
                rw [← dropWhile_fold (fun c => pN_tolower) a,
                  ← dropWhile_fold (fun c => pN_tolower) b, h]
              rw [if_neg (show ¬ tokenCmp (Token.text (a.takeWhile pN))
                  (Token.text (b.takeWhile pN)) ≠ 0 from by
                rw [tokenCmp_text_text, listCmp_cmpInt_eq_zero.mpr hrunf]; simp)]
              exact hihd.mpr hrest

theorem natcmp_final_range (a b : List Nat) :
    natcmp_final a b = -1 ∨ natcmp_final a b = 0 ∨ natcmp_final a b = 1 := by
  unfold natcmp_final
  split_ifs <;> simp

theorem natcmp_digits_range (a b : List Nat) :
    (natcmp_digits a b).1 = -1 ∨ (natcmp_digits a b).1 = 0 ∨
      (natcmp_digits a b).1 = 1 := by
  rw [(digits_spec a b).1]
  exact tokenCmp_lawful.range _ _

theorem both_digit_of_checks {a b : List Nat}
    (hnn : ¬(¬ isdigit (curByte a) = true ∧ ¬ isdigit (curByte b) = true))
    (hmis : ¬ isdigit (curByte a) ≠ isdigit (curByte b)) :
    isdigit (curByte a) = true ∧ isdigit (curByte b) = true := by
  have heq : isdigit (curByte a) = isdigit (curByte b) := by
    by_contra hne; exact hmis hne
  cases hX : isdigit (curByte a) with
  | true => exact ⟨rfl, by rw [← heq]; exact hX⟩
  | false => exact absurd ⟨by simp [hX], by rw [← heq]; simp [hX]⟩ hnn

/-- The strategy contract the `natcmp` loop relies on: a callback that
reports 0 at two non-digit positions writes strictly advanced end
cursors (the default strategy satisfies this). -/
def StrategyAdvances (f : NondigitCmp) : Prop :=
  ∀ a b : List Nat, curByte a ≠ 0 → curByte b ≠ 0 →
    isdigit (curByte a) = false → isdigit (curByte b) = false →
    (f a b).1 = 0 →
    ∃ ea eb, (f a b).2 = some (ea, eb) ∧ ea.length < a.length ∧ eb.length < b.length

/-- The loop returns one of -1, 0, 1 for any contract-abiding strategy. -/
theorem natcmpLoop_range (f : NondigitCmp) (hf : StrategyAdvances f) :
    ∀ (fuel : Nat) (a b : List Nat), a.length < fuel →
      natcmpLoop f fuel a b = some (-1) ∨ natcmpLoop f fuel a b = some 0 ∨
        natcmpLoop f fuel a b = some 1 := by
  intro fuel
  induction fuel with
  | zero => intro a b h; omega
  | succ n ih =>
    intro a b hlen
    simp only [natcmpLoop]
    by_cases hab : curByte a ≠ 0 ∧ curByte b ≠ 0
    case neg =>
      rw [if_neg hab]
      rcases natcmp_final_range a b with h | h | h <;> rw [h] <;> simp
    case pos =>
      rw [if_pos hab]
      by_cases hnn : ¬ isdigit (curByte a) = true ∧ ¬ isdigit (curByte b) = true
      case pos =>
        rw [if_pos hnn]
        by_cases hz : (f a b).1 = 0
        case neg =>
          rw [if_pos (show (f a b).1 ≠ 0 from hz)]
          by_cases hneg : (f a b).1 < 0
          · rw [if_pos hneg]; simp
          · rw [if_neg hneg]; simp
        case pos =>
          rw [if_neg (show ¬ (f a b).1 ≠ 0 from by simp [hz])]
          obtain ⟨ea, eb, heq, hla, hlb⟩ := hf a b hab.1 hab.2
            (by simpa using hnn.1) (by simpa using hnn.2) hz
          rw [heq]
          simp only []
          by_cases hend : curByte ea = 0 ∨ curByte eb = 0
          · rw [if_pos hend]
            rcases natcmp_final_range ea eb with h | h | h <;> rw [h] <;> simp
          · rw [if_neg hend]
            by_cases hm : isdigit (curByte ea) ≠ isdigit (curByte eb)
            · rw [if_pos hm]
              by_cases hde : isdigit (curByte ea) = true
              · rw [if_pos hde]; simp
              · rw [if_neg hde]; simp
            · rw [if_neg hm]
              by_cases hdz : (natcmp_digits ea eb).1 = 0
              · rw [if_neg (show ¬ (natcmp_digits ea eb).1 ≠ 0 from by simp [hdz])]
                refine ih _ _ ?_
                rw [(digits_spec ea eb).2 hdz]
                show (ea.dropWhile pD).length < n
                have := List.Sublist.length_le (List.dropWhile_sublist (l := ea) pD)
                omega
              · rw [if_pos hdz]
                rcases natcmp_digits_range ea eb with h | h | h <;> rw [h] <;> simp
      case neg =>
        rw [if_neg hnn]
        by_cases hmis : isdigit (curByte a) ≠ isdigit (curByte b)
        case pos =>
          rw [if_pos hmis]
          by_cases hde : isdigit (curByte a) = true
          · rw [if_pos hde]; simp
          · rw [if_neg hde]; simp
        case neg =>
          rw [if_neg hmis]
          obtain ⟨hda, hdb⟩ := both_digit_of_checks hnn hmis
          by_cases hdz : (natcmp_digits a b).1 = 0
          · rw [if_neg (show ¬ (natcmp_digits a b).1 ≠ 0 from by simp [hdz])]
            refine ih _ _ ?_
            rw [(digits_spec a b).2 hdz]
            show (a.dropWhile pD).length < n
            have := length_dropWhile_lt_of_head hab.1 (pD_iff.mpr ⟨hab.1, hda⟩)
            omega
          · rw [if_pos hdz]
            rcases natcmp_digits_range a b with h | h | h <;> rw [h] <;> simp

/-- The loop result depends on the strategy only through the sign of its
return value and its end cursors on ties. -/
theorem natcmpLoop_congr (f g : NondigitCmp)
    (hsame : ∀ a b : List Nat, Int.sign ((f a b).1) = Int.sign ((g a b).1) ∧
      ((f a b).1 = 0 → (f a b).2 = (g a b).2)) :
    ∀ (fuel : Nat) (a b : List Nat), natcmpLoop f fuel a b = natcmpLoop g fuel a b := by
  intro fuel
  induction fuel with
  | zero => intro a b; rfl
  | succ n ih =>
    intro a b
    simp only [natcmpLoop]
    by_cases hab : curByte a ≠ 0 ∧ curByte b ≠ 0
    case neg => rw [if_neg hab, if_neg hab]
    case pos =>
      rw [if_pos hab, if_pos hab]
      by_cases hnn : ¬ isdigit (curByte a) = true ∧ ¬ isdigit (curByte b) = true
      case neg =>
        rw [if_neg hnn, if_neg hnn]
        by_cases hmis : isdigit (curByte a) ≠ isdigit (curByte b)
        · rw [if_pos hmis, if_pos hmis]
        · rw [if_neg hmis, if_neg hmis]
          by_cases hdz : (natcmp_digits a b).1 ≠ 0
          · rw [if_pos hdz, if_pos hdz]
          · rw [if_neg hdz, if_neg hdz, ih]
      case pos =>
        rw [if_pos hnn, if_pos hnn]
        by_cases hz : (f a b).1 = 0
        case neg =>
          have hgz : (g a b).1 ≠ 0 := by
            intro h0
            have hs := (hsame a b).1
            rw [h0, Int.sign_zero] at hs
            exact hz (Int.sign_eq_zero_iff_zero.mp hs)
          rw [if_pos (show (f a b).1 ≠ 0 from hz), if_pos hgz]
          by_cases hneg : (f a b).1 < 0
          · have hgneg : (g a b).1 < 0 := by
              have hs := (hsame a b).1
              rw [Int.sign_eq_neg_one_of_neg hneg] at hs
              exact Int.sign_eq_neg_one_iff_neg.mp hs.symm
            rw [if_pos hneg, if_pos hgneg]
          · have hgneg : ¬ (g a b).1 < 0 := by
              intro hgneg
              have hs := (hsame a b).1
              rw [Int.sign_eq_neg_one_of_neg hgneg] at hs
              exact hneg (Int.sign_eq_neg_one_iff_neg.mp hs)
            rw [if_neg hneg, if_neg hgneg]
        case pos =>
          have hgz : (g a b).1 = 0 := by
            have hs := (hsame a b).1
            rw [hz, Int.sign_zero] at hs
            exact Int.sign_eq_zero_iff_zero.mp hs.symm
          rw [if_neg (show ¬ (f a b).1 ≠ 0 from by simp [hz]),
            if_neg (show ¬ (g a b).1 ≠ 0 from by simp [hgz]),
            (hsame a b).2 hz]
          cases hopt : (g a b).2 with
          | none => rfl
          | some p =>
            obtain ⟨ea, eb⟩ := p
            simp only []
            by_cases hend : curByte ea = 0 ∨ curByte eb = 0
            · rw [if_pos hend, if_pos hend]
            · rw [if_neg hend, if_neg hend]
              by_cases hm : isdigit (curByte ea) ≠ isdigit (curByte eb)
              · rw [if_pos hm, if_pos hm]
              · rw [if_neg hm, if_neg hm]
                by_cases hdz : (natcmp_digits ea eb).1 ≠ 0
                · rw [if_pos hdz, if_pos hdz]
                · rw [if_neg hdz, if_neg hdz, ih]

theorem ascii_range (a b : List Nat) :
    (natcmp_nondigit_cmp_ascii a b).1 = -1 ∨ (natcmp_nondigit_cmp_ascii a b).1 = 0 ∨
      (natcmp_nondigit_cmp_ascii a b).1 = 1 := by
  rw [(ascii_spec a b).1]
  exact tokenCmp_lawful.range _ _

theorem natcmp_eq_digits_of_ne (a b : List Nat) (f : Option NondigitCmp)
    (ha : isdigit (curByte a) = true) (hb : isdigit (curByte b) = true)
    (hne : (natcmp_digits a b).1 ≠ 0) :
    natcmp a b f = some (natcmp_digits a b).1 := by
  have ha0 : curByte a ≠ 0 := isdigit_ne_zero ha
  have hb0 : curByte b ≠ 0 := isdigit_ne_zero hb
  unfold natcmp
  simp only [natcmpLoop]
  rw [if_pos ⟨ha0, hb0⟩,
    if_neg (show ¬(¬ isdigit (curByte a) = true ∧ ¬ isdigit (curByte b) = true) from
      fun h => h.1 ha),
    if_neg (show ¬ isdigit (curByte a) ≠ isdigit (curByte b) from by rw [ha, hb]; simp),
    if_pos hne]

/-- C1: at a digit/digit comparison point, the digit runs are compared by
significant length first (shorter significant run is smaller), then by the
first differing significant digit, then by total run length including
leading zeros (more leading zeros orders after); on full equality the
cursors advance past the full runs and the loop continues.  In
particular `natcmp "file2.txt" "file10.txt" < 0` and
`natcmp "file02.txt" "file002.txt" < 0` with the default strategy. -/
theorem natcmp_digit_run_cases (a b ra rb sa sb : List Nat) (f : Option NondigitCmp)
    (ha : isdigit (curByte a) = true) (hb : isdigit (curByte b) = true)
    (hra : ra = a.takeWhile pD) (hrb : rb = b.takeWhile pD)
    (hsa : sa = skipLeadingZeros ra) (hsb : sb = skipLeadingZeros rb) :
    (sa.length < sb.length → natcmp a b f = some (-1)) ∧
    (sb.length < sa.length → natcmp a b f = some 1) ∧
    (sa.length = sb.length → listCmp cmpInt sa sb ≠ 0 →
      natcmp a b f = some (listCmp cmpInt sa sb)) ∧
    (sa = sb → ra.length < rb.length → natcmp a b f = some (-1)) ∧
    (sa = sb → rb.length < ra.length → natcmp a b f = some 1) ∧
    (ra = rb → natcmp_digits a b = (0, a.dropWhile pD, b.dropWhile pD)) ∧
    natcmpA (bytes "file2.txt") (bytes "file10.txt") = -1 ∧
    natcmpA (bytes "file02.txt") (bytes "file002.txt") = -1 := by
  subst hra hrb hsa hsb
  refine ⟨?_, ?_, ?_, ?_, ?_, ?_, by decide, by decide⟩
  · intro h
    have ht : (natcmp_digits a b).1 = -1 := by
      rw [(digits_spec a b).1, tokenCmp_num_num,
        if_pos (show cmpInt (skipLeadingZeros (a.takeWhile pD)).length
            (skipLeadingZeros (b.takeWhile pD)).length ≠ 0 from by
          rw [cmpInt_eq_negone.mpr h]; decide), cmpInt_eq_negone.mpr h]
    rw [natcmp_eq_digits_of_ne a b f ha hb (by rw [ht]; decide), ht]
  · intro h
    have ht : (natcmp_digits a b).1 = 1 := by
      rw [(digits_spec a b).1, tokenCmp_num_num,
        if_pos (show cmpInt (skipLeadingZeros (a.takeWhile pD)).length
            (skipLeadingZeros (b.takeWhile pD)).length ≠ 0 from by
          rw [cmpInt_eq_one.mpr h]; decide), cmpInt_eq_one.mpr h]
    rw [natcmp_eq_digits_of_ne a b f ha hb (by rw [ht]; decide), ht]
  · intro h hne
    have ht : (natcmp_digits a b).1
        = listCmp cmpInt (skipLeadingZeros (a.takeWhile pD))
            (skipLeadingZeros (b.takeWhile pD)) := by
      rw [(digits_spec a b).1, tokenCmp_num_num,
        if_neg (show ¬ cmpInt (skipLeadingZeros (a.takeWhile pD)).length
            (skipLeadingZeros (b.takeWhile pD)).length ≠ 0 from by
          simp [cmpInt_eq_zero.mpr h]), if_pos hne]
    rw [natcmp_eq_digits_of_ne a b f ha hb (by rw [ht]; exact hne), ht]
  · intro h h2
    have ht : (natcmp_digits a b).1 = -1 := by
      rw [(digits_spec a b).1, tokenCmp_num_num,
        if_neg (show ¬ cmpInt (skipLeadingZeros (a.takeWhile pD)).length
            (skipLeadingZeros (b.takeWhile pD)).length ≠ 0 from by
          simp [cmpInt_eq_zero.mpr (congrArg List.length h)]),
        if_neg (show ¬ listCmp cmpInt (skipLeadingZeros (a.takeWhile pD))
            (skipLeadingZeros (b.takeWhile pD)) ≠ 0 from by
          rw [h, (listCmp_lawful cmpInt_lawful).cmp_refl]; simp),
        cmpInt_eq_negone.mpr h2]
    rw [natcmp_eq_digits_of_ne a b f ha hb (by rw [ht]; decide), ht]
  · intro h h2
    have ht : (natcmp_digits a b).1 = 1 := by
      rw [(digits_spec a b).1, tokenCmp_num_num,
        if_neg (show ¬ cmpInt (skipLeadingZeros (a.takeWhile pD)).length
            (skipLeadingZeros (b.takeWhile pD)).length ≠ 0 from by
          simp [cmpInt_eq_zero.mpr (congrArg List.length h)]),
        if_neg (show ¬ listCmp cmpInt (skipLeadingZeros (a.takeWhile pD))
            (skipLeadingZeros (b.takeWhile pD)) ≠ 0 from by
          rw [h, (listCmp_lawful cmpInt_lawful).cmp_refl]; simp),
        cmpInt_eq_one.mpr h2]
    rw [natcmp_eq_digits_of_ne a b f ha hb (by rw [ht]; decide), ht]
  · intro h
    have ht0 : (natcmp_digits a b).1 = 0 := by
      rw [(digits_spec a b).1, h, tokenCmp_lawful.cmp_refl]
    exact Prod.ext ht0 ((digits_spec a b).2 ht0)

theorem natcmp_digit_run_cases_witness :
    natcmp (bytes "2x") (bytes "10x") none = some (-1) ∧
    natcmpA (bytes "file2.txt") (bytes "file10.txt") = -1 ∧
    natcmpA (bytes "file02.txt") (bytes "file002.txt") = -1 :=
  have h := natcmp_digit_run_cases (bytes "2x") (bytes "10x") (bytes "2") (bytes "10")
    (bytes "2") (bytes "10") none (by decide) (by decide) (by decide) (by decide)
    (by decide) (by decide)
  ⟨h.1 (by decide), h.2.2.2.2.2.2.1, h.2.2.2.2.2.2.2⟩

/-- C2: the default non-digit strategy scans each string to its first
digit or terminator, compares the shorter-length prefix of the two runs
case-insensitively; a non-zero prefix comparison is returned as -1/1
without writing end cursors; an equal prefix with different run lengths
orders the shorter run first, also without writing end cursors; only on
full match does it return 0 and set both end cursors to the first digit
or terminator. -/
theorem nondigit_strategy_cases (a b ra rb : List Nat) (m : Nat) (p : Int)
    (hra : ra = a.takeWhile pN) (hrb : rb = b.takeWhile pN)
    (hm : m = min ra.length rb.length)
    (hp : p = listCmp cmpInt ((ra.take m).map tolower) ((rb.take m).map tolower)) :
    (p ≠ 0 → natcmp_nondigit_cmp_ascii a b = (p, none)) ∧
    (p = 0 → ra.length < rb.length → natcmp_nondigit_cmp_ascii a b = (-1, none)) ∧
    (p = 0 → rb.length < ra.length → natcmp_nondigit_cmp_ascii a b = (1, none)) ∧
    (p = 0 → ra.length = rb.length →
      natcmp_nondigit_cmp_ascii a b = (0, some (a.dropWhile pN, b.dropWhile pN)) ∧
      pN (curByte (a.dropWhile pN)) = false ∧ pN (curByte (b.dropWhile pN)) = false) := by
  subst hra hrb hm hp
  obtain ⟨hs1, hs2, hs3⟩ := ascii_spec a b
  have hs1' : (natcmp_nondigit_cmp_ascii a b).1
      = listCmp cmpInt ((a.takeWhile pN).map tolower) ((b.takeWhile pN).map tolower) := by
    rw [hs1, tokenCmp_text_text]
  have key := prefix_then_length_eq_listCmp cmpInt
      ((a.takeWhile pN).map tolower) ((b.takeWhile pN).map tolower)
  rw [List.length_map, List.length_map, ← List.map_take, ← List.map_take] at key
  refine ⟨?_, ?_, ?_, ?_⟩
  · intro hne
    rw [if_pos hne] at key
    have h1 := hs1'.trans key.symm
    exact Prod.ext h1 (hs3 (by rw [h1]; exact hne))
  · intro hz hlt
    rw [if_neg (fun hne => hne hz)] at key
    have h2 : (natcmp_nondigit_cmp_ascii a b).1 = -1 := by
      rw [hs1'.trans key.symm, cmpInt_eq_negone.mpr hlt]
    exact Prod.ext h2 (hs3 (by rw [h2]; decide))
  · intro hz hlt
    rw [if_neg (fun hne => hne hz)] at key
    have h2 : (natcmp_nondigit_cmp_ascii a b).1 = 1 := by
      rw [hs1'.trans key.symm, cmpInt_eq_one.mpr hlt]
    exact Prod.ext h2 (hs3 (by rw [h2]; decide))
  · intro hz hlen
    rw [if_neg (fun hne => hne hz)] at key
    have h2 : (natcmp_nondigit_cmp_ascii a b).1 = 0 := by
      rw [hs1'.trans key.symm, cmpInt_eq_zero.mpr hlen]
    exact ⟨Prod.ext h2 (hs2 h2), curByte_dropWhile pN_zero a, curByte_dropWhile pN_zero b⟩

theorem nondigit_strategy_cases_witness :
    (0 : Int) = listCmp cmpInt (((bytes "ab").take 2).map tolower)
      (((bytes "abc").take 2).map tolower) ∧
    natcmp_nondigit_cmp_ascii (bytes "ab") (bytes "abc") = (-1, none) :=
  have h := nondigit_strategy_cases (bytes "ab") (bytes "abc") (bytes "ab") (bytes "abc")
    2 0 (by decide) (by decide) (by decide) (by decide)
  ⟨by decide, h.2.1 rfl (by decide)⟩

/-- C3: the ordering induced by `natcmp` with the default strategy is
transitive. -/
theorem natcmp_trans (x y z : List Nat) (h1 : natcmpA x y ≤ 0) (h2 : natcmpA y z ≤ 0) :
    natcmpA x z ≤ 0 := by
  rw [natcmpA_eq_spec] at h1 h2 ⊢
  exact specCmp_lawful.le_trans h1 h2

theorem natcmp_trans_witness :
    natcmpA (bytes "file2.txt") (bytes "file10.txt") ≤ 0 ∧
    natcmpA (bytes "file10.txt") (bytes "file10x") ≤ 0 ∧
    natcmpA (bytes "file2.txt") (bytes "file10x") ≤ 0 :=
  ⟨by decide, by decide,
    natcmp_trans (bytes "file2.txt") (bytes "file10.txt") (bytes "file10x")
      (by decide) (by decide)⟩

/-- C4: `natcmp` with the default strategy is antisymmetric:
`sign (natcmp x y) = - sign (natcmp y x)`. -/
theorem natcmp_antisymm (x y : List Nat) :
    Int.sign (natcmpA x y) = - Int.sign (natcmpA y x) ∧ natcmpA y x = - natcmpA x y := by
  rw [natcmpA_eq_spec, natcmpA_eq_spec]
  have h := specCmp_lawful.flip x y
  refine ⟨?_, h⟩
  rcases specCmp_lawful.range x y with hr | hr | hr <;> rw [hr] at h ⊢ <;> rw [h] <;> decide

/-- C5: `natcmp` with the default strategy terminates for every pair of
inputs within a fuel budget equal to the combined input length plus one
(each loop iteration strictly advances the cursors). -/
theorem natcmp_terminates (a b : List Nat) : natcmp a b none = some (natcmpA a b) := by
  rw [natcmpA_eq_spec]
  exact natcmp_eq_spec a b

/-- C6: when exactly one of the two current bytes is an ASCII digit,
`natcmp` immediately returns -1 if the digit is on side `a` and 1 if it
is on side `b`; in particular `natcmp "1abc" "abc" < 0`. -/
theorem natcmp_digit_mismatch (a b : List Nat) (f : Option NondigitCmp)
    (ha : curByte a ≠ 0) (hb : curByte b ≠ 0) :
    (isdigit (curByte a) = true → isdigit (curByte b) = false →
      natcmp a b f = some (-1)) ∧
    (isdigit (curByte a) = false → isdigit (curByte b) = true →
      natcmp a b f = some 1) ∧
    natcmpA (bytes "1abc") (bytes "abc") = -1 := by
  refine ⟨fun hda hdb => ?_, fun hda hdb => ?_, by decide⟩
  · unfold natcmp
    simp only [natcmpLoop]
    rw [if_pos ⟨ha, hb⟩,
      if_neg (show ¬(¬ isdigit (curByte a) = true ∧ ¬ isdigit (curByte b) = true) from
        fun h => h.1 hda),
      if_pos (show isdigit (curByte a) ≠ isdigit (curByte b) from by
        rw [hda, hdb]; simp),
      if_pos hda]
  · unfold natcmp
    simp only [natcmpLoop]
    rw [if_pos ⟨ha, hb⟩,
      if_neg (show ¬(¬ isdigit (curByte a) = true ∧ ¬ isdigit (curByte b) = true) from
        fun h => h.2 hdb),
      if_pos (show isdigit (curByte a) ≠ isdigit (curByte b) from by
        rw [hda, hdb]; simp),
      if_neg (show ¬ isdigit (curByte a) = true from by rw [hda]; simp)]

theorem natcmp_digit_mismatch_witness :
    ((isdigit (curByte (bytes "1a")) = true → isdigit (curByte (bytes "a")) = false →
        natcmp (bytes "1a") (bytes "a") none = some (-1)) ∧
     (isdigit (curByte (bytes "1a")) = false → isdigit (curByte (bytes "a")) = true →
        natcmp (bytes "1a") (bytes "a") none = some 1) ∧
     natcmpA (bytes "1abc") (bytes "abc") = -1) ∧
    natcmp (bytes "1a") (bytes "a") none = some (-1) :=
  have h := natcmp_digit_mismatch (bytes "1a") (bytes "a") none (by decide) (by decide)
  ⟨h, h.1 (by decide) (by decide)⟩

/-- C7: when a cursor is at its terminator, `natcmp` returns 1 if only
`b` is exhausted, -1 if only `a` is, 0 if both are; in particular
`natcmp "" "" = 0`, `natcmp "" "a" < 0`, `natcmp "a" "" > 0`. -/
theorem natcmp_terminator_cases (a b : List Nat) (f : Option NondigitCmp)
    (h : curByte a = 0 ∨ curByte b = 0) :
    natcmp a b f = some (if curByte b ≠ 0 then -1 else if curByte a ≠ 0 then 1 else 0) ∧
    natcmpA [] [] = 0 ∧ natcmpA [] (bytes "a") = -1 ∧ natcmpA (bytes "a") [] = 1 := by
  refine ⟨?_, by decide, by decide, by decide⟩
  unfold natcmp
  simp only [natcmpLoop]
  rw [if_neg (show ¬(curByte a ≠ 0 ∧ curByte b ≠ 0) by tauto)]
  rfl

theorem natcmp_terminator_cases_witness :
    natcmp [] (bytes "a") none
      = some (if curByte (bytes "a") ≠ 0 then -1
              else if curByte ([] : List Nat) ≠ 0 then 1 else 0) ∧
    natcmpA [] [] = 0 ∧ natcmpA [] (bytes "a") = -1 ∧ natcmpA (bytes "a") [] = 1 :=
  natcmp_terminator_cases [] (bytes "a") none (Or.inl rfl)

/-- C8: calling `natcmp` with a null (absent) strategy gives exactly the
same result as calling it with `natcmp_nondigit_cmp_ascii` explicitly. -/
theorem natcmp_null_strategy (a b : List Nat) :
    natcmp a b none = natcmp a b (some natcmp_nondigit_cmp_ascii) := rfl

theorem ascii_advances : StrategyAdvances natcmp_nondigit_cmp_ascii := by
  intro a b ha0 hb0 hda hdb hz
  exact ⟨a.dropWhile pN, b.dropWhile pN, (ascii_spec a b).2.1 hz,
    length_dropWhile_lt_of_head ha0 (pN_iff.mpr ⟨ha0, hda⟩),
    length_dropWhile_lt_of_head hb0 (pN_iff.mpr ⟨hb0, hdb⟩)⟩

/-- C9: for every contract-abiding strategy, `natcmp` returns exactly one
of -1, 0, 1, and its result depends only on the sign of each strategy
return value (plus the end cursors written on ties), not its magnitude. -/
theorem natcmp_strategy_sign (f g : NondigitCmp) (hf : StrategyAdvances f)
    (hsame : ∀ a b : List Nat, Int.sign ((f a b).1) = Int.sign ((g a b).1) ∧
      ((f a b).1 = 0 → (f a b).2 = (g a b).2))
    (a b : List Nat) :
    (natcmp a b (some f) = some (-1) ∨ natcmp a b (some f) = some 0 ∨
      natcmp a b (some f) = some 1) ∧
    natcmp a b (some f) = natcmp a b (some g) := by
  constructor
  · exact natcmpLoop_range f hf (a.length + b.length + 1) a b (by omega)
  · exact natcmpLoop_congr f g hsame (a.length + b.length + 1) a b

/-- A strategy returning magnitude-5 results with the default signs. -/
def scaled_ascii : NondigitCmp := fun a b =>
  (5 * (natcmp_nondigit_cmp_ascii a b).1, (natcmp_nondigit_cmp_ascii a b).2)

theorem scaled_ascii_advances : StrategyAdvances scaled_ascii := by
  intro a b ha0 hb0 hda hdb hz
  have hz0 : (natcmp_nondigit_cmp_ascii a b).1 = 0 := by
    have h5 : (5 : Int) * (natcmp_nondigit_cmp_ascii a b).1 = 0 := hz
    omega
  exact ⟨a.dropWhile pN, b.dropWhile pN, (ascii_spec a b).2.1 hz0,
    length_dropWhile_lt_of_head ha0 (pN_iff.mpr ⟨ha0, hda⟩),
    length_dropWhile_lt_of_head hb0 (pN_iff.mpr ⟨hb0, hdb⟩)⟩

theorem scaled_ascii_same : ∀ a b : List Nat,
    Int.sign ((scaled_ascii a b).1) = Int.sign ((natcmp_nondigit_cmp_ascii a b).1) ∧
    ((scaled_ascii a b).1 = 0 →
      (scaled_ascii a b).2 = (natcmp_nondigit_cmp_ascii a b).2) := by
  intro a b
  refine ⟨?_, fun _ => rfl⟩
  rcases ascii_range a b with h | h | h <;>
    simp only [scaled_ascii] <;> rw [h] <;> decide

theorem natcmp_strategy_sign_witness :
    (natcmp (bytes "a1b") (bytes "A01c") (some scaled_ascii) = some (-1) ∨
     natcmp (bytes "a1b") (bytes "A01c") (some scaled_ascii) = some 0 ∨
     natcmp (bytes "a1b") (bytes "A01c") (some scaled_ascii) = some 1) ∧
    natcmp (bytes "a1b") (bytes "A01c") (some scaled_ascii)
      = natcmp (bytes "a1b") (bytes "A01c") (some natcmp_nondigit_cmp_ascii) :=
  natcmp_strategy_sign scaled_ascii natcmp_nondigit_cmp_ascii scaled_ascii_advances
    scaled_ascii_same (bytes "a1b") (bytes "A01c")

/-- C10: with the default strategy, `natcmp a b = 0` iff `a` and `b` are
equal byte-for-byte after ASCII case folding (hence equal length); in
particular `natcmp x x = 0`. -/
theorem natcmp_eq_zero_iff (a b : List Nat) (ha : 0 ∉ a) (hb : 0 ∉ b) :
    (natcmpA a b = 0 ↔ a.map tolower = b.map tolower) ∧ natcmpA a a = 0 := by
  constructor
  · rw [natcmpA_eq_spec]
    exact specCmp_eq_zero_iff a.length a b (Nat.le_refl _) ha hb
  · rw [natcmpA_eq_spec]
    exact specCmp_lawful.cmp_refl a

theorem natcmp_eq_zero_iff_witness :
    natcmpA (bytes "aB1") (bytes "Ab1") = 0 ∧
    (bytes "aB1").map tolower = (bytes "Ab1").map tolower ∧
    natcmpA (bytes "aB1") (bytes "aB1") = 0 :=
  have h := natcmp_eq_zero_iff (bytes "aB1") (bytes "Ab1") (by decide) (by decide)
  ⟨h.1.mpr (by decide), by decide, h.2⟩
